import Mathlib

/-!
The search iterator `AutomatonSearchIter`.

A shallow embedding of `src/AutomatonSearchIter.c` (pyahocorasick): the search
iterator that walks a text through an Aho-Corasick automaton and yields one
`(position, payload)` tuple per call.

Conventions of the embedding.

* A `TrieNode*` is an `Option Nat`: `none` is `NULL`, `some n` is the node with
  identifier `n`; the fields the iterator reads from a node are given by
  `Env.node`.
* The functions and types the file takes from headers that are not part of
  `src/` (`ahocorasick_next`, the `TrieNode` and `Automaton` records, the
  `Py_UNICODE_WIDE` build switch) are fields of `Env`.
* `int` fields are mathematical integers (the spec's "integer"); buffer
  elements are reduced modulo the width of the C type they are read at.
* A read outside the buffer, and a failed `ASSERT`, are results of their own.
-/

namespace AhoCorasick

/-! ## Data model -/

/-- The `kind` tag of an automaton selecting the payload representation.
`INVALID` stands for every value other than the three named ones (the
`default:` arm of the `switch`). -/
inductive KeysStore
  | STORE_INTS
  | STORE_LENGTH
  | STORE_ANY
  | INVALID
  deriving DecidableEq, Repr

/-- The fields of a `TrieNode` read by the iterator: `eow`, `fail`, and the two
members `output.integer` and `output.object`. -/
structure TrieNode where
  eow : Bool
  fail : Option Nat
  integer : Int
  object : Nat
  deriving DecidableEq, Repr

/-- The fields of an `Automaton` read by the iterator. -/
structure Automaton where
  root : Option Nat
  version : Int
  kind : KeysStore
  deriving DecidableEq, Repr

/-- Everything the iterator consults outside of its own record: the automaton,
the node store, the transition helper `ahocorasick_next(state, root, byte)`
and the build switch `Py_UNICODE_WIDE`. -/
structure Env where
  automaton : Automaton
  node : Nat → TrieNode
  ahocorasick_next : Option Nat → Option Nat → Nat → Option Nat
  Py_UNICODE_WIDE : Bool

/-- A Python object as far as the iterator distinguishes objects: a bytes
object, a unicode object (its code units), or anything else, for which only the
answer of `PyObject_IsTrue` matters. -/
inductive PyObject
  | bytes (data : List Nat)
  | unicode (data : List Nat)
  | other (truth : Int)
  deriving DecidableEq, Repr

/-- The second component of a yielded tuple: `node->output.integer` or
`node->output.object`. -/
inductive Payload
  | integer (i : Int)
  | object (o : Nat)
  deriving DecidableEq, Repr

/-- The record `AutomatonSearchIter`. The `automaton` pointer is the automaton
of the `Env` the operations are run in; `data` is determined by `object` and
`is_unicode`. -/
structure AutomatonSearchIter where
  version : Int
  object : PyObject
  is_unicode : Bool
  state : Option Nat
  output : Option Nat
  index : Int
  shift : Int
  end_ : Int
  deriving DecidableEq, Repr

/-- What one call of `automaton_search_iter_next` gives back. -/
inductive NextResult
  | tuple (position : Int) (payload : Payload)
  | StopIteration
  | ValueError_changed
  | ValueError_inconsistent
  | assert_failed
  | bad_read
  deriving DecidableEq, Repr

/-- What one call of `automaton_search_iter_set` gives back. -/
inductive SetResult
  | None
  | TypeError
  | null
  deriving DecidableEq, Repr

/-! ## automaton_search_iter_new -/

/-- Source lines 18-51. -/
def automaton_search_iter_new (E : Env) (object : PyObject) (start end_ : Int)
    ( is_unicode : Bool) : AutomatonSearchIter :=
  { version := E.automaton.version
    object := object
    is_unicode := is_unicode
    state := E.automaton.root
    output := none
    shift := 0
    index := start - 1
    end_ := end_ }

/-! ## automaton_search_iter_next -/

/-- The macro `NEXT(byte)`. -/
def NEXT (E : Env) (state : Option Nat) (byte : Nat) : Option Nat :=
  E.ahocorasick_next state E.automaton.root byte

/-- The element `data[index]` of the buffer, `none` when the index is outside the
object or the object is not of the kind `is_unicode` says. -/
def readUnit (c : AutomatonSearchIter) : Option Nat :=
  if c.index < 0 then none
  else
    match c.is_unicode, c.object with
    | true, PyObject.unicode d => d[c.index.toNat]?
    | false, PyObject.bytes d => d[c.index.toNat]?
    | _, _ => none

/-- Lines 113-117 (UCS-2 build), over any transition function. -/
def feed_ucs2 {σ : Type} (nxt : σ → Nat → σ) (st : σ) (w : Nat) : σ :=
  let st1 := nxt st (w &&& 0xff)
  if w > 0x00ff then nxt st1 ((w >>> 8) &&& 0xff) else st1

/-- Lines 119-127 (UCS-4 build), over any transition function. -/
def feed_ucs4 {σ : Type} (nxt : σ → Nat → σ) (st : σ) (w : Nat) : σ :=
  let st1 := nxt st (w &&& 0xff)
  let st2 := if w < 0x00010000 then nxt st1 ((w >>> 8) &&& 0xff) else st1
  let st3 := if w < 0x01000000 then nxt st2 ((w >>> 16) &&& 0xff) else st2
  if w > 0x00ffffff then nxt st3 ((w >>> 24) &&& 0xff) else st3

/-- Lines 111-134: the state after the element `raw` of the buffer has been
consumed. -/
def consume {σ : Type} (nxt : σ → Nat → σ) (wide is_unicode : Bool) (st : σ)
    (raw : Nat) : σ :=
  if is_unicode then
    if wide then feed_ucs4 nxt st (raw % 2 ^ 32)
    else feed_ucs2 nxt st (raw % 2 ^ 16)
  else nxt st (raw % 2 ^ 8)

/-- The payload a node yields under an automaton kind, `none` in the `default:`
arm. -/
def payloadOf (kind : KeysStore) (nd : TrieNode) : Option Payload :=
  match kind with
  | KeysStore.STORE_LENGTH => some (Payload.integer nd.integer)
  | KeysStore.STORE_INTS => some (Payload.integer nd.integer)
  | KeysStore.STORE_ANY => some (Payload.object nd.object)
  | KeysStore.INVALID => none

/-- Lines 78-105, the true arm of the test at the label `return_output`:
`some` with what the call returns when `output` is an end-of-word node, `none`
when the test fails. -/
def return_output (E : Env) (c : AutomatonSearchIter) :
    Option (NextResult × AutomatonSearchIter) :=
  match c.output with
  | none => none
  | some n =>
    if (E.node n).eow then
      match payloadOf E.automaton.kind (E.node n) with
      | some p =>
        some (NextResult.tuple (c.index + c.shift) p, { c with output := (E.node n).fail })
      | none => some (NextResult.ValueError_inconsistent, c)
    else none

/-- Lines 110-144: one pass through the body of the `while` loop. `Sum.inl` is
a return from the function (through `return_output`, a failed `ASSERT` or a read
outside the buffer); `Sum.inr` is the iterator with which the loop goes on. -/
def loop_body (E : Env) (c : AutomatonSearchIter) :
    (NextResult × AutomatonSearchIter) ⊕ AutomatonSearchIter :=
  match readUnit c with
  | none => Sum.inl (NextResult.bad_read, c)
  | some raw =>
    let c1 := { c with state := consume (NEXT E) E.Py_UNICODE_WIDE c.is_unicode c.state raw }
    match c1.state with
    | none => Sum.inl (NextResult.assert_failed, c1)
    | some s =>
      if (E.node s).eow then
        let c2 := { c1 with output := c1.state }
        match return_output E c2 with
        | some r => Sum.inl r
        | none => Sum.inr { c2 with index := c2.index + 1 }
      else Sum.inr { c1 with index := c1.index + 1 }

/-- Lines 109-148: the `while` loop, entered at its test. The first argument
bounds the number of passes; `automaton_search_iter_next` gives it
`end - index`, which is enough (`while_loop_fuel`). -/
def while_loop (E : Env) : Nat → AutomatonSearchIter → NextResult × AutomatonSearchIter
  | 0, c => (NextResult.StopIteration, c)
  | fuel + 1, c =>
    if c.index < c.end_ then
      match loop_body E c with
      | Sum.inl r => r
      | Sum.inr c1 => while_loop E fuel c1
    else (NextResult.StopIteration, c)

/-- Source lines 70-149. -/
def automaton_search_iter_next (E : Env) (c : AutomatonSearchIter) :
    NextResult × AutomatonSearchIter :=
  if c.version ≠ E.automaton.version then (NextResult.ValueError_changed, c)
  else
    match return_output E c with
    | some r => r
    | none =>
      let c1 := { c with index := c.index + 1 }
      while_loop E (c1.end_ - c1.index).toNat c1

/-! ## automaton_search_iter_set -/

/-- The answer of `PyObject_IsTrue`: `0`, `1`, or a negative value on error. -/
def PyObject_IsTrue (o : PyObject) : Int :=
  match o with
  | PyObject.bytes d => if d = [] then 0 else 1
  | PyObject.unicode d => if d = [] then 0 else 1
  | PyObject.other t => t

/-- Source lines 152-222; `args` is the argument tuple. -/
def automaton_search_iter_set (E : Env) (c : AutomatonSearchIter) (args : List PyObject) :
    SetResult × AutomatonSearchIter :=
  match args[0]? with
  | none => (SetResult.null, c)
  | some object =>
    let kindLen : Option (Bool × Int) :=
      match object with
      | PyObject.unicode d => some (true, (d.length : Int))
      | PyObject.bytes d => some (false, (d.length : Int))
      | PyObject.other _ => none
    match kindLen with
    | none => (SetResult.TypeError, c)
    | some (is_unicode, len) =>
      let flag : Option Bool :=
        match args[1]? with
        | some f =>
          if PyObject_IsTrue f = 0 then some false
          else if PyObject_IsTrue f = 1 then some true
          else none
        | none => some false
      match flag with
      | none => (SetResult.null, c)
      | some reset =>
        let c1 := { c with is_unicode := is_unicode, object := object }
        let c2 :=
          if !reset then
            { c1 with shift := c1.shift + (if c1.index ≥ 0 then c1.index else 0) }
          else c1
        let c3 := { c2 with index := -1, end_ := len }
        let c4 :=
          if reset then { c3 with state := E.automaton.root, shift := 0, output := none }
          else c3
        (SetResult.None, c4)

/-! ## Sequences of calls -/

/-- The iterator after `n` successive calls of `automaton_search_iter_next`. -/
def afterPulls (E : Env) : Nat → AutomatonSearchIter → AutomatonSearchIter
  | 0, c => c
  | n + 1, c => afterPulls E n (automaton_search_iter_next E c).2

/-- The results of `n` successive calls of `automaton_search_iter_next`. -/
def pulls (E : Env) : Nat → AutomatonSearchIter → List NextResult
  | 0, _ => []
  | n + 1, c =>
    (automaton_search_iter_next E c).1 :: pulls E n (automaton_search_iter_next E c).2

/-- Calls `automaton_search_iter_next` until it gives something other than a
tuple: the tuples collected, that last result and the iterator it leaves.
`none` when `fuel` calls were all tuples. -/
def drain (E : Env) :
    Nat → AutomatonSearchIter → Option (List (Int × Payload) × NextResult × AutomatonSearchIter)
  | 0, _ => none
  | fuel + 1, c =>
    match automaton_search_iter_next E c with
    | (NextResult.tuple p v, c1) =>
      (drain E fuel c1).map (fun r => ((p, v) :: r.1, r.2))
    | (r, c1) => some ([], r, c1)

/-- The number of elements of a bytes or unicode object (`PyBytes_GET_SIZE`,
`PyUnicode_GET_SIZE`). -/
def PyObject.len (o : PyObject) : Int :=
  match o with
  | PyObject.bytes d => (d.length : Int)
  | PyObject.unicode d => (d.length : Int)
  | PyObject.other _ => 0

/-- Whether `PyUnicode_Check` holds of the object. -/
def PyObject.isUnicode (o : PyObject) : Bool :=
  match o with
  | PyObject.unicode _ => true
  | _ => false

/-- Whether the object is a bytes or a unicode object. -/
def PyObject.isBuffer (o : PyObject) : Bool :=
  match o with
  | PyObject.other _ => false
  | _ => true

/-- The fields `automaton_search_iter_next` never writes are the same in both
iterators. -/
def SameFrame (c c1 : AutomatonSearchIter) : Prop :=
  c1.version = c.version ∧ c1.object = c.object ∧ c1.is_unicode = c.is_unicode ∧
    c1.shift = c.shift ∧ c1.end_ = c.end_

/-- The bytes handed to the transition function, in order, while one element
`w` of a unicode buffer is consumed: the code of `consume` run with a
transition function that records its byte argument. -/
def fedBytes (wide : Bool) (w : Nat) : List Nat :=
  consume (fun (l : List Nat) (b : Nat) => l ++ [b]) wide true [] w

/-- The low-order bytes of a code point, least significant first: one byte up
to `0xFF`, two up to `0xFFFF`, three up to `0xFFFFFF`, four above. -/
def lowBytes (w : Nat) : List Nat :=
  if w ≤ 0xFF then [w &&& 0xff]
  else if w ≤ 0xFFFF then [w &&& 0xff, (w >>> 8) &&& 0xff]
  else if w ≤ 0xFFFFFF then [w &&& 0xff, (w >>> 8) &&& 0xff, (w >>> 16) &&& 0xff]
  else [w &&& 0xff, (w >>> 8) &&& 0xff, (w >>> 16) &&& 0xff, (w >>> 24) &&& 0xff]

/-- The payload read from a node under the three named kinds. -/
def nodePayload (kind : KeysStore) (nd : TrieNode) : Payload :=
  match kind with
  | KeysStore.STORE_ANY => Payload.object nd.object
  | _ => Payload.integer nd.integer

/-- The pointer `p` starts a chain `p, p->fail, ...` whose end-of-word nodes are
exactly `ns`, in order, and which continues with the pointer `q`, the first
that is `NULL` or not an end-of-word node. -/
def eowChain (E : Env) : Option Nat → List Nat → Option Nat → Bool
  | p, [], q =>
    decide (p = q) &&
      (match p with
       | none => true
       | some s => !(E.node s).eow)
  | p, n :: ns, q => decide (p = some n) && (E.node n).eow && eowChain E (E.node n).fail ns q

/-- The flag object `False`. -/
def PyFalse : PyObject := PyObject.other 0

/-- The flag object `True`. -/
def PyTrue : PyObject := PyObject.other 1

/-! ## The automaton of a pattern set

The construction of the automaton is not part of `src/`; the definitions of
this section follow the spec's description of it. -/

/-- Modelled from the spec: a state of the "precomputed trie of registered
patterns" (glossary, Automaton). A state is identified with the word spelled on
the path from the root to it; `eow` says that the word is a registered pattern
and `integer` is then its payload. The construction subsystem is missing from
`src/`. -/
structure BuildNode where
  word : List Nat
  eow : Bool
  integer : Int
  deriving DecidableEq, Repr

/-- Modelled from the spec: the identifier of the trie state spelling `w` (its
place in the node table), if there is one. The trie of the construction
subsystem is missing from `src/`. -/
def trieFind (t : List BuildNode) (w : List Nat) : Option Nat :=
  t.findIdx? (fun nd => decide (nd.word = w))

/-- Modelled from the spec: registering one pattern with its payload in the
trie: a state is added for every prefix of the pattern that has none yet, and
the state of the whole pattern is marked end-of-word. Pattern insertion is
missing from `src/`. -/
def trieAddWord (t : List BuildNode) (w : List Nat) (v : Int) : List BuildNode :=
  let t1 := (List.range (w.length + 1)).foldl
    (fun acc k =>
      if (trieFind acc (w.take k)).isSome then acc
      else acc ++ [{ word := w.take k, eow := false, integer := 0 }]) t
  t1.map (fun nd => if nd.word = w then { nd with eow := true, integer := v } else nd)

/-- Modelled from the spec: the trie of a pattern set, the root (the empty word)
being state `0`. Trie construction is missing from `src/`. -/
def makeTrie (P : List (List Nat × Int)) : List BuildNode :=
  P.foldl (fun t p => trieAddWord t p.1 p.2) [{ word := [], eow := false, integer := 0 }]

/-- Modelled from the spec: the failure link of a state ("trie-with-failure-links"):
the state of the longest proper suffix of its word that is in the trie; the
root has none. The computation of failure links is missing from `src/`. -/
def trieFail (t : List BuildNode) (n : Nat) : Option Nat :=
  match t[n]? with
  | none => none
  | some nd =>
    match nd.word with
    | [] => none
    | _ :: rest => rest.tails.findSome? (trieFind t)

/-- Modelled from the spec: the direct edge of a state under a byte, if the trie
has one. The trie's edge lookup is missing from `src/`. -/
def trieGetNext (t : List BuildNode) (n : Nat) (byte : Nat) : Option Nat :=
  match t[n]? with
  | none => none
  | some nd => trieFind t (nd.word ++ [byte])

/-- Modelled from the spec: the transition oracle `next(state, root, byte)`,
which "internally resolves via failure links toward root when no direct edge
exists": the direct edge if there is one, else the same question at the failure
link, and the root when the links are used up. `ahocorasick_next` is missing
from `src/`. The first argument bounds the number of links followed. -/
def trieNext (t : List BuildNode) :
    Nat → Option Nat → Option Nat → Nat → Option Nat
  | 0, _, root, _ => root
  | _ + 1, none, root, _ => root
  | fuel + 1, some n, root, byte =>
    match trieGetNext t n byte with
    | some m => some m
    | none => trieNext t fuel (trieFail t n) root byte

/-- Modelled from the spec: the automaton built for a pattern set, as the
iterator sees it: root, version, kind `STORE_INTS`, the nodes with their
end-of-word flag, failure link and integer payload, and the transition oracle.
The automaton construction is missing from `src/`. -/
def buildEnv (P : List (List Nat × Int)) (version : Int) (wide : Bool) : Env :=
  let t := makeTrie P
  { automaton := { root := some 0, version := version, kind := KeysStore.STORE_INTS }
    node := fun n =>
      match t[n]? with
      | some nd => { eow := nd.eow, fail := trieFail t n, integer := nd.integer, object := 0 }
      | none => { eow := false, fail := none, integer := 0, object := 0 }
    ahocorasick_next := trieNext t (t.length + 1)
    Py_UNICODE_WIDE := wide }

/-- The reference scan: for every position of the text in ascending order, the
payload of every pattern that ends there. -/
def bruteForce (P : List (List Nat × Int)) (T : List Nat) : List (Int × Payload) :=
  (List.range T.length).flatMap (fun i =>
    (P.filter (fun p => decide (p.1 ≠ []) && (p.1 <:+ T.take (i + 1)))).map
      (fun p => ((i : Int), Payload.integer p.2)))

/-- The bytes of an ASCII string. -/
def ascii (s : String) : List Nat := s.toList.map Char.toNat

/-- The patterns of the spec's concrete scenario, with their payloads. -/
def ushersPatterns : List (List Nat × Int) :=
  [(ascii "he", 2), (ascii "she", 3), (ascii "hers", 4)]

/-- The automaton of the spec's concrete scenario. -/
def ushersEnv : Env := buildEnv ushersPatterns 0 false

/-- The iterator of the spec's concrete scenario: a new iterator over the whole
of the text `ushers`. -/
def ushersIter : AutomatonSearchIter :=
  automaton_search_iter_new ushersEnv (PyObject.bytes (ascii "ushers")) 0 6 false

/-! ## Further definitions -/

/-- A pattern set in which one pattern, `b`, occurs inside another, `abc`,
without being a suffix of it. -/
def innerPatterns : List (List Nat × Int) :=
  [(ascii "abc", 3), (ascii "b", 1)]

/-- A pattern set in which the failure chain of the node of `abc` passes through
the node of `bc`, which is not a pattern, before the node of the pattern `c`. -/
def gapPatterns : List (List Nat × Int) :=
  [(ascii "abc", 3), (ascii "bcx", 7), (ascii "c", 1)]

/-- The tuples and the last result of a drained iterator, without the iterator. -/
def outcome (r : Option (List (Int × Payload) × NextResult × AutomatonSearchIter)) :
    Option (List (Int × Payload) × NextResult) :=
  r.map (fun x => (x.1, x.2.1))

/-- The iterator `c`, which runs over the whole of a text `T`, seen as an
iterator over the first chunk `T[0..k)`: the same fields but for the buffer and
its end. -/
def onFirstChunk (T : List Nat) (k : Nat) (c : AutomatonSearchIter) : AutomatonSearchIter :=
  { c with object := PyObject.bytes (T.take k), end_ := (k : Int) }

/-- The iterator `c`, which runs over the whole of a text `T`, seen as an
iterator over the second chunk `T[k..)` with `k` added to its shift. -/
def onSecondChunk (T : List Nat) (k : Nat) (c : AutomatonSearchIter) : AutomatonSearchIter :=
  { c with object := PyObject.bytes (T.drop k), end_ := (T.length : Int) - (k : Int),
           index := c.index - (k : Int), shift := c.shift + (k : Int) }

/-- The iterator runs over the whole of the narrow text `T` with the version of
the automaton. -/
def OverText (E : Env) (T : List Nat) (c : AutomatonSearchIter) : Prop :=
  c.version = E.automaton.version ∧ c.object = PyObject.bytes T ∧ c.is_unicode = false ∧
    c.end_ = (T.length : Int)

/-- The result of a call with the iterator replaced by its image under `f`. -/
def mapIter (f : AutomatonSearchIter → AutomatonSearchIter)
    (r : NextResult × AutomatonSearchIter) : NextResult × AutomatonSearchIter :=
  (r.1, f r.2)

/-- The iterator of the concrete scenario at the loop test with `index = 3`:
the bytes `u`, `s`, `h` are consumed and the state is the node of `sh`. -/
def ushersAt3 : AutomatonSearchIter :=
  { ushersIter with index := 3, state := some 4 }

/-- An end-of-word node is at the output pointer: the next call drains it. -/
def Pending (E : Env) (c : AutomatonSearchIter) : Prop :=
  ∃ s, c.output = some s ∧ (E.node s).eow = true

/-- The number of passes through the body of the `while` loop that `while_loop`
makes: the recursion of `while_loop`, counting. -/
def while_loop_passes (E : Env) : Nat → AutomatonSearchIter → Nat
  | 0, _ => 0
  | fuel + 1, c =>
    if c.index < c.end_ then
      match loop_body E c with
      | Sum.inl _ => 1
      | Sum.inr c1 => 1 + while_loop_passes E fuel c1
    else 0

/-- The iterator runs over the narrow text `T` with the end `e` and the current
version, and its state is the fold of the transition function over the bytes
`T[s], ..., T[j-1]` from the root. -/
def NarrowScan (E : Env) (T : List Nat) (s e : Nat) (c : AutomatonSearchIter) (j : Nat) :
    Prop :=
  c.version = E.automaton.version ∧ c.object = PyObject.bytes T ∧ c.is_unicode = false ∧
    c.end_ = (e : Int) ∧ s ≤ j ∧ j ≤ e ∧
    c.state = ((T.take j).drop s).foldl (NEXT E) E.automaton.root

/-- The index of the iterator is between `-1` and its end. -/
def IndexInRange (c : AutomatonSearchIter) : Prop :=
  -1 ≤ c.index ∧ c.index ≤ c.end_

end AhoCorasick

/-! ## Theorems -/

namespace AhoCorasick

/-! ### One call -/

theorem return_output_result (E : Env) (c : AutomatonSearchIter)
    (r : NextResult × AutomatonSearchIter) (h : return_output E c = some r) :
    ∃ s, c.output = some s ∧ (E.node s).eow = true ∧
      ((∃ v, payloadOf E.automaton.kind (E.node s) = some v ∧
          r = (NextResult.tuple (c.index + c.shift) v, { c with output := (E.node s).fail })) ∨
       (payloadOf E.automaton.kind (E.node s) = none ∧
          r = (NextResult.ValueError_inconsistent, c))) := by
  unfold return_output at h
  split at h
  · simp at h
  · rename_i s hs
    refine ⟨s, hs, ?_⟩
    split at h
    · rename_i he
      refine ⟨he, ?_⟩
      split at h
      · rename_i v hv
        simp at h; subst h; exact Or.inl ⟨v, hv, rfl⟩
      · rename_i hv
        simp at h; subst h; exact Or.inr ⟨hv, rfl⟩
    · simp at h

theorem return_output_none (E : Env) (c : AutomatonSearchIter) :
    return_output E c = none ↔ ∀ s, c.output = some s → (E.node s).eow = false := by
  unfold return_output
  constructor
  · intro h s hs
    rw [hs] at h
    simp only at h
    by_contra he
    simp only [Bool.not_eq_false] at he
    rw [if_pos he] at h
    split at h <;> simp at h
  · intro h
    split
    · rfl
    · rename_i s hs
      rw [if_neg (by simp [h s hs])]

theorem loop_body_inr (E : Env) (c c1 : AutomatonSearchIter)
    (h : loop_body E c = Sum.inr c1) :
    ∃ raw s, readUnit c = some raw ∧
      consume (NEXT E) E.Py_UNICODE_WIDE c.is_unicode c.state raw = some s ∧
      (E.node s).eow = false ∧
      c1 = { c with state := some s, index := c.index + 1 } := by
  unfold loop_body at h
  split at h
  · simp at h
  · rename_i raw hraw
    simp only at h
    split at h
    · simp at h
    · rename_i s hs
      split at h
      · rename_i he
        split at h
        · simp at h
        · rename_i hnone
          exfalso
          have := (return_output_none E _).1 hnone s (by simpa using hs)
          simp [he] at this
      · rename_i he
        simp at h
        refine ⟨raw, s, hraw, hs, by simpa using he, ?_⟩
        rw [← h, hs]

theorem loop_body_inl (E : Env) (c : AutomatonSearchIter)
    (r : NextResult × AutomatonSearchIter) (h : loop_body E c = Sum.inl r) :
    (readUnit c = none ∧ r = (NextResult.bad_read, c)) ∨
    (∃ raw, readUnit c = some raw ∧
      consume (NEXT E) E.Py_UNICODE_WIDE c.is_unicode c.state raw = none ∧
      r = (NextResult.assert_failed, { c with state := none })) ∨
    (∃ raw s, readUnit c = some raw ∧
      consume (NEXT E) E.Py_UNICODE_WIDE c.is_unicode c.state raw = some s ∧
      (E.node s).eow = true ∧
      return_output E { c with state := some s, output := some s } = some r) := by
  unfold loop_body at h
  split at h
  · rename_i hraw
    simp at h
    exact Or.inl ⟨hraw, h.symm⟩
  · rename_i raw hraw
    simp only at h
    split at h
    · rename_i hs
      simp at h
      refine Or.inr (Or.inl ⟨raw, hraw, hs, ?_⟩)
      rw [← h, hs]
    · rename_i s hs
      split at h
      · rename_i he
        split at h
        · rename_i r1 hr1
          simp at h
          subst h
          refine Or.inr (Or.inr ⟨raw, s, hraw, hs, he, ?_⟩)
          rw [← hr1, hs]
        · simp at h
      · simp at h

theorem loop_body_quiet (E : Env) (c : AutomatonSearchIter) (raw s : Nat)
    (hraw : readUnit c = some raw)
    (hs : consume (NEXT E) E.Py_UNICODE_WIDE c.is_unicode c.state raw = some s)
    (he : (E.node s).eow = false) :
    loop_body E c = Sum.inr { c with state := some s, index := c.index + 1 } := by
  unfold loop_body
  simp [hraw, hs, he]

theorem loop_body_hit (E : Env) (c : AutomatonSearchIter) (raw s : Nat)
    (r : NextResult × AutomatonSearchIter)
    (hraw : readUnit c = some raw)
    (hs : consume (NEXT E) E.Py_UNICODE_WIDE c.is_unicode c.state raw = some s)
    (hr : return_output E { c with state := some s, output := some s } = some r) :
    loop_body E c = Sum.inl r := by
  have he : (E.node s).eow = true := by
    obtain ⟨s1, h1, h2, _⟩ := return_output_result E _ r hr
    simp at h1
    subst h1
    exact h2
  unfold loop_body
  simp [hraw, hs, he, hr]

/-- The bound `end - index` on the number of passes is enough: any larger bound
gives the same result. -/
theorem while_loop_fuel (E : Env) :
    ∀ (fuel : Nat) (c : AutomatonSearchIter), (c.end_ - c.index).toNat ≤ fuel →
      while_loop E fuel c = while_loop E (c.end_ - c.index).toNat c := by
  intro fuel
  induction fuel with
  | zero =>
    intro c h
    have h0 : (c.end_ - c.index).toNat = 0 := by omega
    rw [h0]
  | succ n ih =>
    intro c h
    by_cases hlt : c.index < c.end_
    · obtain ⟨m, hm⟩ : ∃ m, (c.end_ - c.index).toNat = m + 1 := ⟨(c.end_ - c.index).toNat - 1, by omega⟩
      rw [hm]
      simp only [while_loop, if_pos hlt]
      cases hb : loop_body E c with
      | inl r => rfl
      | inr c1 =>
        simp only
        obtain ⟨raw, s, _, _, _, hc1⟩ := loop_body_inr E c c1 hb
        have h1 : (c1.end_ - c1.index).toNat = m := by
          subst hc1
          simp only
          omega
        rw [ih c1 (by omega), h1]
    · have h0 : (c.end_ - c.index).toNat = 0 := by omega
      rw [h0]
      simp [while_loop, hlt]

theorem while_loop_unfold (E : Env) (fuel : Nat) (c : AutomatonSearchIter)
    (h : (c.end_ - c.index).toNat ≤ fuel) :
    while_loop E fuel c =
      if c.index < c.end_ then
        match loop_body E c with
        | Sum.inl r => r
        | Sum.inr c1 => while_loop E fuel c1
      else (NextResult.StopIteration, c) := by
  cases fuel with
  | zero =>
    have hlt : ¬ c.index < c.end_ := by omega
    simp [while_loop, hlt]
  | succ n =>
    conv_lhs => rw [while_loop]
    by_cases hlt : c.index < c.end_
    · simp only [if_pos hlt]
      cases hb : loop_body E c with
      | inl r => rfl
      | inr c1 =>
        simp only
        obtain ⟨raw, s, _, _, _, hc1⟩ := loop_body_inr E c c1 hb
        have h1 : (c1.end_ - c1.index).toNat ≤ n := by
          subst hc1
          simp only
          omega
        rw [while_loop_fuel E n c1 h1, while_loop_fuel E (n + 1) c1 (by omega)]
    · simp only [if_neg hlt]

theorem while_loop_spec (E : Env) :
    ∀ (fuel : Nat) (c : AutomatonSearchIter) (r : NextResult) (c1 : AutomatonSearchIter),
      while_loop E fuel c = (r, c1) →
      SameFrame c c1 ∧ c.index ≤ c1.index ∧ r ≠ NextResult.ValueError_changed ∧
      (r = NextResult.StopIteration →
        c1.output = c.output ∧ ((c.end_ - c.index).toNat ≤ fuel → c1.end_ ≤ c1.index)) := by
  intro fuel
  induction fuel with
  | zero =>
    intro c r c1 h
    simp only [while_loop, Prod.mk.injEq] at h
    obtain ⟨hr, hc⟩ := h
    subst hr hc
    refine ⟨⟨rfl, rfl, rfl, rfl, rfl⟩, le_refl _, by simp, fun _ => ⟨rfl, fun h => by omega⟩⟩
  | succ n ih =>
    intro c r c1 h
    rw [while_loop] at h
    by_cases hlt : c.index < c.end_
    · simp only [if_pos hlt] at h
      cases hb : loop_body E c with
      | inl r0 =>
        rw [hb] at h
        simp only at h
        rcases loop_body_inl E c r0 hb with ⟨_, h1⟩ | ⟨raw, _, _, h1⟩ | ⟨raw, s, _, _, _, h1⟩
        · rw [h1, Prod.mk.injEq] at h
          obtain ⟨hr, hc⟩ := h
          subst hr hc
          exact ⟨⟨rfl, rfl, rfl, rfl, rfl⟩, le_refl _, by simp, fun h => by simp at h⟩
        · rw [h1, Prod.mk.injEq] at h
          obtain ⟨hr, hc⟩ := h
          subst hr hc
          exact ⟨⟨rfl, rfl, rfl, rfl, rfl⟩, le_refl _, by simp, fun h => by simp at h⟩
        · obtain ⟨s1, _, _, h2⟩ := return_output_result E _ r0 h1
          rcases h2 with ⟨v, _, h3⟩ | ⟨_, h3⟩
          · rw [h3, Prod.mk.injEq] at h
            obtain ⟨hr, hc⟩ := h
            subst hr hc
            exact ⟨⟨rfl, rfl, rfl, rfl, rfl⟩, le_refl _, by simp, fun h => by simp at h⟩
          · rw [h3, Prod.mk.injEq] at h
            obtain ⟨hr, hc⟩ := h
            subst hr hc
            exact ⟨⟨rfl, rfl, rfl, rfl, rfl⟩, le_refl _, by simp, fun h => by simp at h⟩
      | inr c2 =>
        rw [hb] at h
        simp only at h
        obtain ⟨raw, s, _, _, _, hc2⟩ := loop_body_inr E c c2 hb
        obtain ⟨⟨f1, f2, f3, f4, f5⟩, hi, hne, hstop⟩ := ih c2 r c1 h
        subst hc2
        simp only at f1 f2 f3 f4 f5 hi hstop
        refine ⟨⟨f1, f2, f3, f4, f5⟩, by omega, hne, fun hr => ?_⟩
        obtain ⟨ho, hb2⟩ := hstop hr
        exact ⟨ho, fun hf => hb2 (by omega)⟩
    · simp only [if_neg hlt, Prod.mk.injEq] at h
      obtain ⟨hr, hc⟩ := h
      subst hr hc
      exact ⟨⟨rfl, rfl, rfl, rfl, rfl⟩, le_refl _, by simp, fun _ => ⟨rfl, fun _ => by omega⟩⟩

theorem next_stale (E : Env) (c : AutomatonSearchIter) (h : c.version ≠ E.automaton.version) :
    automaton_search_iter_next E c = (NextResult.ValueError_changed, c) := by
  unfold automaton_search_iter_next
  rw [if_pos h]

theorem next_pending (E : Env) (c : AutomatonSearchIter) (r : NextResult × AutomatonSearchIter)
    (hv : c.version = E.automaton.version) (h : return_output E c = some r) :
    automaton_search_iter_next E c = r := by
  unfold automaton_search_iter_next
  rw [if_neg (by simpa using hv), h]

theorem next_advance (E : Env) (c : AutomatonSearchIter)
    (hv : c.version = E.automaton.version) (h : return_output E c = none) (fuel : Nat)
    (hf : (c.end_ - (c.index + 1)).toNat ≤ fuel) :
    automaton_search_iter_next E c = while_loop E fuel { c with index := c.index + 1 } := by
  unfold automaton_search_iter_next
  rw [if_neg (by simpa using hv), h]
  simp only
  rw [while_loop_fuel E fuel _ (by simpa using hf)]

/-- What a call that does not fail on the version does to the iterator. -/
theorem next_spec (E : Env) (c : AutomatonSearchIter) (r : NextResult) (c1 : AutomatonSearchIter)
    (hv : c.version = E.automaton.version)
    (h : automaton_search_iter_next E c = (r, c1)) :
    SameFrame c c1 ∧ c.index ≤ c1.index ∧ r ≠ NextResult.ValueError_changed ∧
      (r = NextResult.StopIteration →
        return_output E c1 = none ∧ c1.output = c.output ∧ c1.end_ ≤ c1.index ∧
          c.index < c1.index) := by
  cases hro : return_output E c with
  | some r0 =>
    rw [next_pending E c r0 hv hro] at h
    obtain ⟨s1, _, _, h2⟩ := return_output_result E _ r0 hro
    rcases h2 with ⟨v, _, h3⟩ | ⟨_, h3⟩
    · rw [h3, Prod.mk.injEq] at h
      obtain ⟨hr, hc⟩ := h
      subst hr hc
      exact ⟨⟨rfl, rfl, rfl, rfl, rfl⟩, le_refl _, by simp, fun h => by simp at h⟩
    · rw [h3, Prod.mk.injEq] at h
      obtain ⟨hr, hc⟩ := h
      subst hr hc
      exact ⟨⟨rfl, rfl, rfl, rfl, rfl⟩, le_refl _, by simp, fun h => by simp at h⟩
  | none =>
    rw [next_advance E c hv hro _ (le_refl _)] at h
    obtain ⟨⟨f1, f2, f3, f4, f5⟩, hi, hne, hstop⟩ := while_loop_spec E _ _ r c1 h
    simp only at f1 f2 f3 f4 f5 hi hstop
    refine ⟨⟨f1, f2, f3, f4, f5⟩, by omega, hne, fun hr => ?_⟩
    obtain ⟨ho, hb⟩ := hstop hr
    refine ⟨?_, ho, hb (le_refl _), by omega⟩
    rw [return_output_none] at hro ⊢
    intro s hs
    exact hro s (by rw [← ho]; exact hs)

/-- C4. The call fails with the "automaton has changed" error exactly when the
version held by the iterator differs from the automaton's version, whatever the
other fields of the iterator are; a call that fails so yields no tuple and
returns the iterator with every field as it was. -/
theorem version_guard (E : Env) (c : AutomatonSearchIter) :
    ((automaton_search_iter_next E c).1 = NextResult.ValueError_changed ↔
      c.version ≠ E.automaton.version) ∧
    ((automaton_search_iter_next E c).1 = NextResult.ValueError_changed →
      (automaton_search_iter_next E c).2 = c) := by
  have key : (automaton_search_iter_next E c).1 = NextResult.ValueError_changed →
      c.version ≠ E.automaton.version := by
    intro h hv
    exact (next_spec E c _ _ hv rfl).2.2.1 h
  refine ⟨⟨key, fun h => by rw [next_stale E c h]⟩, fun h => ?_⟩
  rw [next_stale E c (key h)]

/-! ### automaton_search_iter_set -/

/-- The iterator `automaton_search_iter_set` leaves when it is given a bytes or
unicode object and the flag is read as `reset`. -/
theorem set_buffer (E : Env) (c : AutomatonSearchIter) (args : List PyObject)
    (buf : PyObject) (reset : Bool)
    (h0 : args[0]? = some buf) (hbuf : buf.isBuffer = true)
    (hflag : (args[1]? = none ∧ reset = false) ∨
      ∃ f, args[1]? = some f ∧ PyObject_IsTrue f = (if reset then 1 else 0)) :
    automaton_search_iter_set E c args =
      (SetResult.None,
        if reset then
          { c with object := buf, is_unicode := buf.isUnicode, index := -1, end_ := buf.len,
                   state := E.automaton.root, shift := 0, output := none }
        else
          { c with object := buf, is_unicode := buf.isUnicode, index := -1, end_ := buf.len,
                   shift := c.shift + (if c.index ≥ 0 then c.index else 0) }) := by
  unfold automaton_search_iter_set
  rw [h0]
  cases buf with
  | other t => simp [PyObject.isBuffer] at hbuf
  | bytes d =>
    rcases hflag with ⟨h1, hr⟩ | ⟨f, h1, hf⟩
    · subst hr
      simp [h1, PyObject.isUnicode, PyObject.len]
    · cases reset <;> simp [h1, hf, PyObject.isUnicode, PyObject.len]
  | unicode d =>
    rcases hflag with ⟨h1, hr⟩ | ⟨f, h1, hf⟩
    · subst hr
      simp [h1, PyObject.isUnicode, PyObject.len]
    · cases reset <;> simp [h1, hf, PyObject.isUnicode, PyObject.len]

/-- A call of `automaton_search_iter_set` that does not return `None` leaves the
iterator as it was. -/
theorem set_failure_unchanged (E : Env) (c : AutomatonSearchIter) (args : List PyObject)
    (h : (automaton_search_iter_set E c args).1 ≠ SetResult.None) :
    (automaton_search_iter_set E c args).2 = c := by
  unfold automaton_search_iter_set at h ⊢
  split
  · rfl
  · rename_i object hobj
    rw [hobj] at h
    simp only at h ⊢
    split
    · rfl
    · rename_i iu len hk
      rw [hk] at h
      simp only at h ⊢
      split
      · rfl
      · rename_i reset hr
        rw [hr] at h
        simp at h

theorem set_version (E : Env) (c : AutomatonSearchIter) (args : List PyObject) :
    (automaton_search_iter_set E c args).2.version = c.version := by
  by_cases h : (automaton_search_iter_set E c args).1 = SetResult.None
  · unfold automaton_search_iter_set at h ⊢
    cases h0 : args[0]? with
    | none => rfl
    | some object =>
      cases object with
      | other t => rfl
      | bytes d =>
        cases h1 : args[1]? with
        | none => simp
        | some f =>
          by_cases hf0 : PyObject_IsTrue f = 0
          · simp [hf0]
          · by_cases hf1 : PyObject_IsTrue f = 1 <;> simp [hf0, hf1]
      | unicode d =>
        cases h1 : args[1]? with
        | none => simp
        | some f =>
          by_cases hf0 : PyObject_IsTrue f = 0
          · simp [hf0]
          · by_cases hf1 : PyObject_IsTrue f = 1 <;> simp [hf0, hf1]
  · rw [set_failure_unchanged E c args h]

/-- C7. `automaton_search_iter_set` fails with the type error exactly when its
first argument is neither a bytes nor a unicode object, and then the iterator
(object, width flag, index, shift, end, state, output) is as it was before the
call. -/
theorem set_type_error (E : Env) (c : AutomatonSearchIter) (args : List PyObject) :
    ((automaton_search_iter_set E c args).1 = SetResult.TypeError ↔
      ∃ o, args[0]? = some o ∧ o.isBuffer = false) ∧
    ((automaton_search_iter_set E c args).1 = SetResult.TypeError →
      (automaton_search_iter_set E c args).2 = c) := by
  refine ⟨?_, fun h => set_failure_unchanged E c args (by rw [h]; simp)⟩
  unfold automaton_search_iter_set
  cases h0 : args[0]? with
  | none => simp
  | some object =>
    cases object with
    | other t => simp [PyObject.isBuffer]
    | bytes d =>
      cases h1 : args[1]? with
      | none => simp [PyObject.isBuffer]
      | some f =>
        by_cases hf0 : PyObject_IsTrue f = 0
        · simp [hf0, PyObject.isBuffer]
        · by_cases hf1 : PyObject_IsTrue f = 1 <;> simp [hf0, hf1, PyObject.isBuffer]
    | unicode d =>
      cases h1 : args[1]? with
      | none => simp [PyObject.isBuffer]
      | some f =>
        by_cases hf0 : PyObject_IsTrue f = 0
        · simp [hf0, PyObject.isBuffer]
        · by_cases hf1 : PyObject_IsTrue f = 1 <;> simp [hf0, hf1, PyObject.isBuffer]

/-- C3. For an iterator in any state whose version is that of the automaton,
`automaton_search_iter_set` with a bytes or unicode object and a true flag
leaves exactly the iterator that `automaton_search_iter_new` makes for that
object over `[0, len)`: state at the root, no output pending, shift `0`; so
every sequence of calls gives the same results from both. -/
theorem set_reset_eq_new (E : Env) (c : AutomatonSearchIter) (args : List PyObject)
    (buf flag : PyObject) (hv : c.version = E.automaton.version)
    (h0 : args[0]? = some buf) (hbuf : buf.isBuffer = true)
    (h1 : args[1]? = some flag) (hflag : PyObject_IsTrue flag = 1) :
    automaton_search_iter_set E c args =
      (SetResult.None, automaton_search_iter_new E buf 0 buf.len buf.isUnicode) ∧
    (∀ n, pulls E n (automaton_search_iter_set E c args).2 =
      pulls E n (automaton_search_iter_new E buf 0 buf.len buf.isUnicode)) ∧
    (∀ fuel, drain E fuel (automaton_search_iter_set E c args).2 =
      drain E fuel (automaton_search_iter_new E buf 0 buf.len buf.isUnicode)) := by
  have key : automaton_search_iter_set E c args =
      (SetResult.None, automaton_search_iter_new E buf 0 buf.len buf.isUnicode) := by
    rw [set_buffer E c args buf true h0 hbuf (Or.inr ⟨flag, h1, by simpa using hflag⟩)]
    simp [automaton_search_iter_new, hv]
  refine ⟨key, ?_, ?_⟩ <;> intro n <;> rw [key]

/-- C5. `automaton_search_iter_set` never writes the version held by the
iterator: for an iterator whose version differs from the automaton's, whatever
the arguments of the call, the version is the same afterwards and the next
`automaton_search_iter_next` fails with the "automaton has changed" error. -/
theorem set_keeps_stale (E : Env) (c : AutomatonSearchIter) (args : List PyObject)
    (h : c.version ≠ E.automaton.version) :
    (automaton_search_iter_set E c args).2.version = c.version ∧
    (automaton_search_iter_next E (automaton_search_iter_set E c args).2).1 =
      NextResult.ValueError_changed := by
  refine ⟨set_version E c args, ?_⟩
  rw [next_stale E _ (by rw [set_version]; exact h)]

/-! ### Exhaustion -/

/-- Consuming an element of a unicode buffer is feeding the bytes of `fedBytes`
to the transition function one after the other, whatever the function is. -/
theorem consume_eq_foldl {σ : Type} (nxt : σ → Nat → σ) (wide : Bool) (st : σ) (w : Nat) :
    consume nxt wide true st w = (fedBytes wide w).foldl nxt st := by
  unfold fedBytes consume
  cases wide
  · simp only [if_true, Bool.false_eq_true, if_false, feed_ucs2]
    split <;> simp
  · simp only [if_true, feed_ucs4]
    split <;> split <;> split <;> simp

/-- On a UCS-2 build the bytes fed for an element are its low-order bytes. -/
theorem fedBytes_ucs2 (w : Nat) (h : w < 2 ^ 16) : fedBytes false w = lowBytes w := by
  unfold fedBytes consume lowBytes feed_ucs2
  simp only [if_true, Bool.false_eq_true, if_false, Nat.mod_eq_of_lt h]
  by_cases h1 : w ≤ 0xFF
  · rw [if_neg (by omega), if_pos h1]
    simp
  · rw [if_pos (by omega), if_neg h1, if_pos (by omega)]
    simp

/-- C9, evaluated on a UCS-4 build. For the code point `0x41` the bytes fed are
`0x41, 0, 0` rather than the single byte `0x41`; for `0x12345` they are
`0x45, 0x01` (the byte `0x23` is skipped) rather than `0x45, 0x23, 0x01`; for
`0x1234567` they are `0x67, 0x01` rather than four bytes. -/
theorem fedBytes_ucs4_mismatch :
    fedBytes true 0x41 = [0x41, 0, 0] ∧ lowBytes 0x41 = [0x41] ∧
    fedBytes true 0x12345 = [0x45, 0x01] ∧ lowBytes 0x12345 = [0x45, 0x23, 0x01] ∧
    fedBytes true 0x1234567 = [0x67, 0x01] ∧ lowBytes 0x1234567 = [0x67, 0x45, 0x23, 0x01] := by
  decide

/-! ### Draining a chain -/

theorem payloadOf_eq (kind : KeysStore) (nd : TrieNode) (hk : kind ≠ KeysStore.INVALID) :
    payloadOf kind nd = some (nodePayload kind nd) := by
  cases kind <;> simp [payloadOf, nodePayload] at hk ⊢

theorem return_output_eow (E : Env) (c : AutomatonSearchIter) (s : Nat)
    (hk : E.automaton.kind ≠ KeysStore.INVALID)
    (ho : c.output = some s) (he : (E.node s).eow = true) :
    return_output E c =
      some (NextResult.tuple (c.index + c.shift) (nodePayload E.automaton.kind (E.node s)),
        { c with output := (E.node s).fail }) := by
  unfold return_output
  rw [ho]
  simp only [he, if_true, payloadOf_eq _ _ hk]

theorem eowChain_nil (E : Env) (p q : Option Nat) (h : eowChain E p [] q = true) :
    p = q ∧ ∀ s, p = some s → (E.node s).eow = false := by
  unfold eowChain at h
  simp only [Bool.and_eq_true, decide_eq_true_eq] at h
  refine ⟨h.1, fun s hs => ?_⟩
  have h2 := h.2
  rw [hs] at h2
  simpa using h2

theorem eowChain_cons (E : Env) (p q : Option Nat) (n : Nat) (ns : List Nat)
    (h : eowChain E p (n :: ns) q = true) :
    p = some n ∧ (E.node n).eow = true ∧ eowChain E (E.node n).fail ns q = true := by
  unfold eowChain at h
  simp only [Bool.and_eq_true, decide_eq_true_eq] at h
  exact ⟨h.1.1, h.1.2, h.2⟩

/-- While the output pointer runs through a chain of end-of-word nodes, each
call yields the payload of the next node at the same position and moves only
the output pointer. -/
theorem pulls_chain (E : Env) (hk : E.automaton.kind ≠ KeysStore.INVALID) :
    ∀ (ns : List Nat) (c : AutomatonSearchIter) (q : Option Nat),
      c.version = E.automaton.version → eowChain E c.output ns q = true →
      pulls E ns.length c =
        ns.map (fun n =>
          NextResult.tuple (c.index + c.shift) (nodePayload E.automaton.kind (E.node n))) ∧
      afterPulls E ns.length c = { c with output := q } ∧
      ∀ j, j ≤ ns.length → (afterPulls E j c).index = c.index := by
  intro ns
  induction ns with
  | nil =>
    intro c q _ h
    obtain ⟨h1, _⟩ := eowChain_nil E _ _ h
    refine ⟨rfl, ?_, ?_⟩
    · simp only [List.length_nil, afterPulls]
      rw [← h1]
    · intro j hj
      have : j = 0 := by simpa using hj
      subst this
      rfl
  | cons n ns ih =>
    intro c q hv h
    obtain ⟨h1, h2, h3⟩ := eowChain_cons E _ _ _ _ h
    have hn := next_pending E c _ hv (return_output_eow E c n hk h1 h2)
    obtain ⟨i1, i2, i3⟩ := ih { c with output := (E.node n).fail } q hv h3
    refine ⟨?_, ?_, ?_⟩
    · simp only [List.length_cons, pulls, hn, List.map_cons]
      rw [i1]
    · simp only [List.length_cons, afterPulls, hn]
      rw [i2]
    · intro j hj
      cases j with
      | zero => rfl
      | succ j =>
        simp only [afterPulls, hn]
        exact i3 j (by simpa using hj)

/-- C10. When the loop, at its test with `index = i < end`, consumes the element
at `i` and that leaves the state at an end-of-word node `s` whose chain
`s, s->fail, ...` has the end-of-word nodes `s :: rest` before its first node
`q` that is `NULL` or not end-of-word: the call returns the payload of `s` at
position `i + shift`; the next `rest.length` calls return the payloads of the
nodes of `rest`, in chain order, all at position `i + shift`; the index is `i`
after each of them; and the call after those leaves an index greater than `i`. -/
theorem chain_draining (E : Env) (c : AutomatonSearchIter) (raw s : Nat) (rest : List Nat)
    (q : Option Nat) (hv : c.version = E.automaton.version)
    (hk : E.automaton.kind ≠ KeysStore.INVALID) (hlt : c.index < c.end_)
    (hraw : readUnit c = some raw)
    (hs : consume (NEXT E) E.Py_UNICODE_WIDE c.is_unicode c.state raw = some s)
    (hchain : eowChain E (some s) (s :: rest) q = true) :
    (∀ fuel, while_loop E (fuel + 1) c =
      (NextResult.tuple (c.index + c.shift) (nodePayload E.automaton.kind (E.node s)),
        { c with state := some s, output := (E.node s).fail })) ∧
    (∀ c0 : AutomatonSearchIter, return_output E c0 = none →
      c = { c0 with index := c0.index + 1 } →
      automaton_search_iter_next E c0 =
        (NextResult.tuple (c.index + c.shift) (nodePayload E.automaton.kind (E.node s)),
          { c with state := some s, output := (E.node s).fail })) ∧
    pulls E rest.length { c with state := some s, output := (E.node s).fail } =
      rest.map (fun n =>
        NextResult.tuple (c.index + c.shift) (nodePayload E.automaton.kind (E.node n))) ∧
    (∀ j, j ≤ rest.length →
      (afterPulls E j { c with state := some s, output := (E.node s).fail }).index = c.index) ∧
    afterPulls E rest.length { c with state := some s, output := (E.node s).fail } =
      { c with state := some s, output := q } ∧
    c.index <
      (afterPulls E (rest.length + 1) { c with state := some s, output := (E.node s).fail }).index := by
  obtain ⟨_, he, hrest⟩ := eowChain_cons E _ _ _ _ hchain
  have hro : return_output E { c with state := some s, output := some s } =
      some (NextResult.tuple (c.index + c.shift) (nodePayload E.automaton.kind (E.node s)),
        { c with state := some s, output := (E.node s).fail }) :=
    return_output_eow E _ s hk rfl he
  have hbody := loop_body_hit E c raw s _ hraw hs hro
  have hloop : ∀ fuel, while_loop E (fuel + 1) c =
      (NextResult.tuple (c.index + c.shift) (nodePayload E.automaton.kind (E.node s)),
        { c with state := some s, output := (E.node s).fail }) := by
    intro fuel
    rw [while_loop, if_pos hlt, hbody]
  obtain ⟨p1, p2, p3⟩ := pulls_chain E hk rest
    { c with state := some s, output := (E.node s).fail } q hv hrest
  refine ⟨hloop, ?_, p1, p3, p2, ?_⟩
  · intro c0 h0 hc
    have hv0 : c0.version = E.automaton.version := by
      rw [← hv, hc]
    rw [next_advance E c0 hv0 h0 ((c0.end_ - (c0.index + 1)).toNat + 1) (by omega), ← hc]
    exact hloop _
  · have hsplit : ∀ (n : Nat) (d : AutomatonSearchIter),
        afterPulls E (n + 1) d = (automaton_search_iter_next E (afterPulls E n d)).2 := by
      intro n
      induction n with
      | zero => intro d; rfl
      | succ m ih => intro d; exact ih _
    rw [hsplit, p2]
    have hq : return_output E { c with state := some s, output := q } = none := by
      rw [return_output_none]
      intro t ht
      have hfin : ∀ (ns : List Nat) (p : Option Nat), eowChain E p ns q = true →
          ∀ t, q = some t → (E.node t).eow = false := by
        intro ns
        induction ns with
        | nil =>
          intro p h t ht
          obtain ⟨h1, h2⟩ := eowChain_nil E _ _ h
          exact h2 t (by rw [h1]; exact ht)
        | cons n ns ih =>
          intro p h
          exact ih _ (eowChain_cons E _ _ _ _ h).2.2
      exact hfin _ _ hrest t ht
    have hvq : ({ c with state := some s, output := q } : AutomatonSearchIter).version =
        E.automaton.version := hv
    have hadv := next_advance E { c with state := some s, output := q } hvq hq _ (le_refl _)
    rw [hadv]
    have hsp := while_loop_spec E _ _ _ _
      (Prod.mk.eta (p := while_loop E
        (({ c with state := some s, output := q } : AutomatonSearchIter).end_ -
          (({ c with state := some s, output := q } : AutomatonSearchIter).index + 1)).toNat
        { ({ c with state := some s, output := q } : AutomatonSearchIter) with
          index := ({ c with state := some s, output := q } : AutomatonSearchIter).index + 1 })).symm
    have := hsp.2.1
    simp only at this ⊢
    omega

/-! ### Instances -/

/-- C4 at an instance: the automaton of the scenario after one edit (version
`1`), and the iterator made before the edit. -/
theorem version_guard_witness :
    ushersIter.version ≠ (buildEnv ushersPatterns 1 false).automaton.version ∧
    (automaton_search_iter_next (buildEnv ushersPatterns 1 false) ushersIter).1 =
      NextResult.ValueError_changed ∧
    (automaton_search_iter_next (buildEnv ushersPatterns 1 false) ushersIter).2 = ushersIter :=
  ⟨by decide,
   (version_guard (buildEnv ushersPatterns 1 false) ushersIter).1.2 (by decide),
   (version_guard (buildEnv ushersPatterns 1 false) ushersIter).2
     ((version_guard (buildEnv ushersPatterns 1 false) ushersIter).1.2 (by decide))⟩

/-- C5 at an instance: the iterator made before an edit of the automaton,
rebound with a true flag after the edit. -/
theorem set_keeps_stale_witness :
    ushersIter.version ≠ (buildEnv ushersPatterns 1 false).automaton.version ∧
    (automaton_search_iter_set (buildEnv ushersPatterns 1 false) ushersIter
      [PyObject.bytes (ascii "he"), PyTrue]).2.version = ushersIter.version ∧
    (automaton_search_iter_next (buildEnv ushersPatterns 1 false)
      (automaton_search_iter_set (buildEnv ushersPatterns 1 false) ushersIter
        [PyObject.bytes (ascii "he"), PyTrue]).2).1 = NextResult.ValueError_changed :=
  ⟨by decide,
   set_keeps_stale (buildEnv ushersPatterns 1 false) ushersIter
     [PyObject.bytes (ascii "he"), PyTrue] (by decide)⟩

/-- C7 at an instance: an argument that is neither bytes nor unicode. -/
theorem set_type_error_witness :
    (automaton_search_iter_set ushersEnv ushersIter [PyObject.other 1]).1 =
      SetResult.TypeError ∧
    (automaton_search_iter_set ushersEnv ushersIter [PyObject.other 1]).2 = ushersIter :=
  ⟨(set_type_error ushersEnv ushersIter [PyObject.other 1]).1.2 ⟨PyObject.other 1, rfl, rfl⟩,
   (set_type_error ushersEnv ushersIter [PyObject.other 1]).2
     ((set_type_error ushersEnv ushersIter [PyObject.other 1]).1.2 ⟨PyObject.other 1, rfl, rfl⟩)⟩

set_option maxRecDepth 100000 in
/-- C3 at an instance: the iterator of the scenario after its first result,
rebound with a true flag to the unicode buffer `she`, gives what a new iterator
over that buffer gives: one result at position `2`, then the end. -/
theorem set_reset_eq_new_witness :
    drain ushersEnv 5 (automaton_search_iter_set ushersEnv (afterPulls ushersEnv 1 ushersIter)
      [PyObject.unicode (ascii "she"), PyTrue]).2 =
      drain ushersEnv 5 (automaton_search_iter_new ushersEnv (PyObject.unicode (ascii "she"))
        0 3 true) ∧
    (drain ushersEnv 5 (automaton_search_iter_new ushersEnv (PyObject.unicode (ascii "she"))
        0 3 true)).map (fun r => (r.1, r.2.1)) =
      some ([(2, Payload.integer 3), (2, Payload.integer 2)], NextResult.StopIteration) :=
  ⟨(set_reset_eq_new ushersEnv (afterPulls ushersEnv 1 ushersIter)
      [PyObject.unicode (ascii "she"), PyTrue] (PyObject.unicode (ascii "she")) PyTrue
      (by decide) rfl rfl rfl rfl).2.2 5,
   by decide⟩

set_option maxRecDepth 100000 in
/-- C10 at the spec's scenario, patterns `he`:2, `she`:3, `hers`:4 over the text
`ushers`. The whole sequence is two results at position `3` (payload `3` of
`she`, then payload `2` of `he`, the order of the chain), one result at
position `5` with payload `4`, then the end of the sequence; and at the loop
test with `index = 3` the theorem gives the first two of them. -/
theorem chain_draining_witness :
    (drain ushersEnv 4 ushersIter).map (fun r => (r.1, r.2.1)) =
      some ([(3, Payload.integer 3), (3, Payload.integer 2), (5, Payload.integer 4)],
        NextResult.StopIteration) ∧
    eowChain ushersEnv (some 5) [5, 2] (some 0) = true ∧
    (while_loop ushersEnv 1 ushersAt3).1 = NextResult.tuple 3 (Payload.integer 3) ∧
    pulls ushersEnv 1 (while_loop ushersEnv 1 ushersAt3).2 =
      [NextResult.tuple 3 (Payload.integer 2)] ∧
    (afterPulls ushersEnv 1 (while_loop ushersEnv 1 ushersAt3).2).index = 3 ∧
    3 < (afterPulls ushersEnv 2 (while_loop ushersEnv 1 ushersAt3).2).index :=
  have h := chain_draining ushersEnv ushersAt3 101 5 [2] (some 0) (by decide) (by decide)
    (by decide) (by decide) (by decide) (by decide)
  ⟨by decide, by decide, by rw [h.1 0]; decide,
   by rw [h.1 0]; exact h.2.2.1.trans (by decide),
   by rw [h.1 0]; exact h.2.2.2.1 1 (le_refl _), by rw [h.1 0]; exact h.2.2.2.2.2⟩

/-! ### Streaming: the first chunk -/

theorem readUnit_first (E : Env) (T : List Nat) (k : Nat) (c : AutomatonSearchIter)
    (hc : OverText E T c) (h0 : 0 ≤ c.index) (h1 : c.index < (k : Int)) :
    readUnit (onFirstChunk T k c) = readUnit c := by
  obtain ⟨_, ho, hu, _⟩ := hc
  unfold readUnit onFirstChunk
  simp only [ho, hu, if_neg (not_lt.mpr h0)]
  exact List.getElem?_take_of_lt (by omega)

theorem readUnit_second (E : Env) (T : List Nat) (k : Nat) (c : AutomatonSearchIter)
    (hc : OverText E T c) (h0 : (k : Int) ≤ c.index) :
    readUnit (onSecondChunk T k c) = readUnit c := by
  obtain ⟨_, ho, hu, _⟩ := hc
  unfold readUnit onSecondChunk
  have hk : (0 : Int) ≤ (k : Int) := Int.ofNat_nonneg k
  simp only [ho, hu, if_neg (not_lt.mpr (sub_nonneg.mpr h0)),
    if_neg (not_lt.mpr (le_trans hk h0))]
  rw [List.getElem?_drop]
  congr 1
  omega

theorem return_output_first (E : Env) (T : List Nat) (k : Nat) (c : AutomatonSearchIter) :
    return_output E (onFirstChunk T k c) =
      (return_output E c).map (mapIter (onFirstChunk T k)) := by
  unfold return_output onFirstChunk mapIter
  simp only
  split
  · rfl
  · split
    · split <;> rfl
    · rfl

theorem return_output_second (E : Env) (T : List Nat) (k : Nat) (c : AutomatonSearchIter) :
    return_output E (onSecondChunk T k c) =
      (return_output E c).map (mapIter (onSecondChunk T k)) := by
  unfold return_output onSecondChunk mapIter
  simp only
  split
  · rfl
  · split
    · split
      · simp only [Option.map_some', Option.some.injEq, Prod.mk.injEq, and_true]
        congr 1
        omega
      · rfl
    · rfl

theorem loop_body_first (E : Env) (T : List Nat) (k : Nat) (c : AutomatonSearchIter)
    (hc : OverText E T c) (h0 : 0 ≤ c.index) (h1 : c.index < (k : Int)) :
    loop_body E (onFirstChunk T k c) =
      Sum.map (mapIter (onFirstChunk T k)) (onFirstChunk T k) (loop_body E c) := by
  unfold loop_body
  rw [readUnit_first E T k c hc h0 h1]
  cases hraw : readUnit c with
  | none => rfl
  | some raw =>
    simp only
    have e1 : (onFirstChunk T k c).is_unicode = c.is_unicode := rfl
    have e2 : (onFirstChunk T k c).state = c.state := rfl
    rw [e1, e2]
    cases hs : consume (NEXT E) E.Py_UNICODE_WIDE c.is_unicode c.state raw with
    | none => rfl
    | some s =>
      simp only
      by_cases he : (E.node s).eow = true
      · simp only [if_pos he]
        have key := return_output_first E T k { c with state := some s, output := some s }
        simp only [onFirstChunk] at key ⊢
        rw [key]
        cases hro : return_output E { c with state := some s, output := some s } with
        | none => rfl
        | some r => rfl
      · simp only [if_neg he]
        rfl

theorem loop_body_second (E : Env) (T : List Nat) (k : Nat) (c : AutomatonSearchIter)
    (hc : OverText E T c) (h0 : (k : Int) ≤ c.index) :
    loop_body E (onSecondChunk T k c) =
      Sum.map (mapIter (onSecondChunk T k)) (onSecondChunk T k) (loop_body E c) := by
  have hidx : ∀ (st out : Option Nat),
      ({ ({ onSecondChunk T k c with state := st, output := out } : AutomatonSearchIter) with
        index := c.index - (k : Int) + 1 } : AutomatonSearchIter) =
      onSecondChunk T k { c with state := st, output := out, index := c.index + 1 } := by
    intro st out
    unfold onSecondChunk
    simp only [AutomatonSearchIter.mk.injEq, true_and, and_true]
    omega
  unfold loop_body
  rw [readUnit_second E T k c hc h0]
  cases hraw : readUnit c with
  | none => rfl
  | some raw =>
    simp only
    have e1 : (onSecondChunk T k c).is_unicode = c.is_unicode := rfl
    have e2 : (onSecondChunk T k c).state = c.state := rfl
    rw [e1, e2]
    cases hs : consume (NEXT E) E.Py_UNICODE_WIDE c.is_unicode c.state raw with
    | none => rfl
    | some s =>
      simp only
      by_cases he : (E.node s).eow = true
      · simp only [if_pos he]
        have key := return_output_second E T k { c with state := some s, output := some s }
        simp only [onSecondChunk] at key ⊢
        rw [key]
        cases hro : return_output E { c with state := some s, output := some s } with
        | none =>
          simp only [Option.map_none', Sum.map_inr, Sum.inr.injEq]
          exact hidx (some s) (some s)
        | some r => rfl
      · simp only [if_neg he, Sum.map_inr, Sum.inr.injEq]
        exact hidx (some s) c.output

/-! ### Streaming: the second chunk -/

theorem overText_of_frame (E : Env) (T : List Nat) (c c1 : AutomatonSearchIter)
    (hc : OverText E T c) (hf : SameFrame c c1) : OverText E T c1 := by
  obtain ⟨h1, h2, h3, h4⟩ := hc
  obtain ⟨f1, f2, f3, _, f5⟩ := hf
  exact ⟨by rw [f1, h1], by rw [f2, h2], by rw [f3, h3], by rw [f5, h4]⟩

theorem while_loop_second (E : Env) (T : List Nat) (k : Nat) :
    ∀ (fuel : Nat) (c : AutomatonSearchIter), OverText E T c → (k : Int) ≤ c.index →
      while_loop E fuel (onSecondChunk T k c) =
        mapIter (onSecondChunk T k) (while_loop E fuel c) := by
  intro fuel
  induction fuel with
  | zero => intro c _ _; rfl
  | succ n ih =>
    intro c hc h0
    have hend : c.end_ = (T.length : Int) := hc.2.2.2
    have htest : ((onSecondChunk T k c).index < (onSecondChunk T k c).end_) ↔
        (c.index < c.end_) := by
      simp only [onSecondChunk, hend]
      omega
    rw [while_loop, while_loop]
    by_cases hlt : c.index < c.end_
    · rw [if_pos hlt, if_pos (htest.mpr hlt), loop_body_second E T k c hc h0]
      cases hb : loop_body E c with
      | inl r => rfl
      | inr c1 =>
        obtain ⟨raw, s, _, _, _, hc1⟩ := loop_body_inr E c c1 hb
        simp only [Sum.map_inr]
        apply ih
        · subst hc1
          exact hc
        · subst hc1
          simp only
          omega
    · rw [if_neg hlt, if_neg (fun h => hlt (htest.mp h))]
      rfl

theorem next_second (E : Env) (T : List Nat) (k : Nat) (c : AutomatonSearchIter)
    (hc : OverText E T c) (h0 : (k : Int) - 1 ≤ c.index) :
    automaton_search_iter_next E (onSecondChunk T k c) =
      mapIter (onSecondChunk T k) (automaton_search_iter_next E c) := by
  have hv : c.version = E.automaton.version := hc.1
  have hv2 : (onSecondChunk T k c).version = E.automaton.version := hv
  have hend : c.end_ = (T.length : Int) := hc.2.2.2
  cases hro : return_output E c with
  | some r =>
    rw [next_pending E c r hv hro,
      next_pending E _ (mapIter (onSecondChunk T k) r) hv2 (by rw [return_output_second, hro]; rfl)]
  | none =>
    have hro2 : return_output E (onSecondChunk T k c) = none := by
      rw [return_output_second, hro]; rfl
    rw [next_advance E c hv hro _ (le_refl _),
      next_advance E _ hv2 hro2 (c.end_ - (c.index + 1)).toNat
        (by simp only [onSecondChunk, hend]; omega)]
    have e : ({ onSecondChunk T k c with index := (onSecondChunk T k c).index + 1 } :
        AutomatonSearchIter) = onSecondChunk T k { c with index := c.index + 1 } := by
      unfold onSecondChunk
      simp only [AutomatonSearchIter.mk.injEq, true_and, and_true]
      omega
    rw [e]
    exact while_loop_second E T k _ _ hc (by simp only; omega)

theorem drain_second (E : Env) (T : List Nat) (k : Nat) :
    ∀ (fuel : Nat) (c : AutomatonSearchIter), OverText E T c → (k : Int) - 1 ≤ c.index →
      drain E fuel (onSecondChunk T k c) =
        (drain E fuel c).map (fun x => (x.1, x.2.1, onSecondChunk T k x.2.2)) := by
  intro fuel
  induction fuel with
  | zero => intro c _ _; rfl
  | succ n ih =>
    intro c hc h0
    rw [drain, drain, next_second E T k c hc h0]
    cases hn : automaton_search_iter_next E c with
    | mk r c1 =>
      obtain ⟨hf, hi, _, _⟩ := next_spec E c r c1 hc.1 hn
      cases r with
      | tuple p v =>
        simp only [mapIter]
        rw [ih c1 (overText_of_frame E T c c1 hc hf) (by omega)]
        cases drain E n c1 <;> rfl
      | StopIteration => rfl
      | ValueError_changed => rfl
      | ValueError_inconsistent => rfl
      | assert_failed => rfl
      | bad_read => rfl

/-! ### Streaming: the boundary -/

theorem loop_body_inl_index (E : Env) (c : AutomatonSearchIter)
    (r : NextResult × AutomatonSearchIter) (h : loop_body E c = Sum.inl r) :
    r.1 ≠ NextResult.StopIteration ∧ r.2.index = c.index := by
  rcases loop_body_inl E c r h with ⟨_, h1⟩ | ⟨raw, _, _, h1⟩ | ⟨raw, s, _, _, _, h1⟩
  · subst h1; exact ⟨by simp, rfl⟩
  · subst h1; exact ⟨by simp, rfl⟩
  · obtain ⟨s1, _, _, h2⟩ := return_output_result E _ r h1
    rcases h2 with ⟨v, _, h3⟩ | ⟨_, h3⟩
    · subst h3; exact ⟨by simp, rfl⟩
    · subst h3; exact ⟨by simp, rfl⟩

theorem while_loop_first (E : Env) (T : List Nat) (k : Nat) (hk : k ≤ T.length) :
    ∀ (fuel : Nat) (c : AutomatonSearchIter), OverText E T c → 0 ≤ c.index →
      c.index ≤ (k : Int) → ((k : Int) - c.index).toNat ≤ fuel →
      ∀ (r : NextResult) (c1 : AutomatonSearchIter),
        while_loop E fuel (onFirstChunk T k c) = (r, c1) →
        (r ≠ NextResult.StopIteration →
          ∃ c2, c1 = onFirstChunk T k c2 ∧ c2.index < (k : Int) ∧
            ∀ fw, (c.end_ - c.index).toNat ≤ fw → while_loop E fw c = (r, c2)) ∧
        (r = NextResult.StopIteration →
          ∃ st, c1 = { onFirstChunk T k c with index := (k : Int), state := st } ∧
            ∀ fw, (c.end_ - c.index).toNat ≤ fw →
              while_loop E fw c = while_loop E fw { c with index := (k : Int), state := st }) := by
  have hstop : ∀ (c : AutomatonSearchIter) (r : NextResult) (c1 : AutomatonSearchIter),
      c.index = (k : Int) → (NextResult.StopIteration, onFirstChunk T k c) = (r, c1) →
      (r ≠ NextResult.StopIteration →
          ∃ c2, c1 = onFirstChunk T k c2 ∧ c2.index < (k : Int) ∧
            ∀ fw, (c.end_ - c.index).toNat ≤ fw → while_loop E fw c = (r, c2)) ∧
        (r = NextResult.StopIteration →
          ∃ st, c1 = { onFirstChunk T k c with index := (k : Int), state := st } ∧
            ∀ fw, (c.end_ - c.index).toNat ≤ fw →
              while_loop E fw c = while_loop E fw { c with index := (k : Int), state := st }) := by
    intro c r c1 hi h
    simp only [Prod.mk.injEq] at h
    obtain ⟨hr, hc1⟩ := h
    subst hr hc1
    refine ⟨fun h => absurd rfl h, fun _ => ⟨c.state, ?_, fun fw _ => ?_⟩⟩
    · rw [← hi]
      rfl
    · rw [← hi]
  intro fuel
  induction fuel with
  | zero =>
    intro c _ h0 h1 hf r c1 h
    exact hstop c r c1 (by omega) h
  | succ n ih =>
    intro c hc h0 h1 hf r c1 h
    have hend : c.end_ = (T.length : Int) := hc.2.2.2
    rw [while_loop] at h
    by_cases hlt : c.index < (k : Int)
    · have hlt1 : (onFirstChunk T k c).index < (onFirstChunk T k c).end_ := hlt
      have hltw : c.index < c.end_ := by rw [hend]; omega
      rw [if_pos hlt1, loop_body_first E T k c hc h0 hlt] at h
      cases hb : loop_body E c with
      | inl r0 =>
        rw [hb] at h
        simp only [Sum.map_inl, mapIter, Prod.mk.injEq] at h
        obtain ⟨hr, hc1⟩ := h
        obtain ⟨hne, hidx⟩ := loop_body_inl_index E c r0 hb
        refine ⟨fun _ => ⟨r0.2, hc1.symm, by rw [hidx]; exact hlt, fun fw hfw => ?_⟩,
          fun h => absurd (hr.trans h) hne⟩
        rw [while_loop_unfold E fw c hfw, if_pos hltw, hb, ← hr]
      | inr c2 =>
        rw [hb] at h
        simp only [Sum.map_inr] at h
        obtain ⟨raw, s, _, _, _, hc2⟩ := loop_body_inr E c c2 hb
        have hstep : ∀ fw, (c.end_ - c.index).toNat ≤ fw →
            while_loop E fw c = while_loop E fw c2 := by
          intro fw hfw
          rw [while_loop_unfold E fw c hfw, if_pos hltw, hb]
        have hc2o : OverText E T c2 := by subst hc2; exact hc
        have hc2i : c2.index = c.index + 1 := by subst hc2; rfl
        have hc2e : c2.end_ = c.end_ := by subst hc2; rfl
        obtain ⟨i1, i2⟩ := ih c2 hc2o (by omega) (by omega) (by omega) r c1 h
        refine ⟨fun hne => ?_, fun hr => ?_⟩
        · obtain ⟨c3, e1, e2, e3⟩ := i1 hne
          exact ⟨c3, e1, e2, fun fw hfw => by
            rw [hstep fw hfw]
            exact e3 fw (by omega)⟩
        · obtain ⟨st, e1, e3⟩ := i2 hr
          refine ⟨st, ?_, fun fw hfw => ?_⟩
          · rw [e1, hc2]
            rfl
          · rw [hstep fw hfw, e3 fw (by omega), hc2]
    · have hlt1 : ¬ (onFirstChunk T k c).index < (onFirstChunk T k c).end_ := hlt
      rw [if_neg hlt1] at h
      exact hstop c r c1 (by omega) h

theorem next_first (E : Env) (T : List Nat) (k : Nat) (hk : k ≤ T.length)
    (c : AutomatonSearchIter) (hc : OverText E T c) (h0 : -1 ≤ c.index)
    (h1 : c.index < (k : Int)) (r : NextResult) (c1 : AutomatonSearchIter)
    (h : automaton_search_iter_next E (onFirstChunk T k c) = (r, c1)) :
    (r ≠ NextResult.StopIteration →
      ∃ c2, c1 = onFirstChunk T k c2 ∧ c2.index < (k : Int) ∧
        automaton_search_iter_next E c = (r, c2)) ∧
    (r = NextResult.StopIteration →
      ∃ st, c1 = { onFirstChunk T k c with index := (k : Int), state := st } ∧
        automaton_search_iter_next E c =
          automaton_search_iter_next E { c with index := (k : Int) - 1, state := st }) := by
  have hv : c.version = E.automaton.version := hc.1
  have hv1 : (onFirstChunk T k c).version = E.automaton.version := hv
  have hend : c.end_ = (T.length : Int) := hc.2.2.2
  cases hro : return_output E c with
  | some r0 =>
    rw [next_pending E _ (mapIter (onFirstChunk T k) r0) hv1
      (by rw [return_output_first, hro]; rfl)] at h
    simp only [mapIter, Prod.mk.injEq] at h
    obtain ⟨hr, hc1⟩ := h
    obtain ⟨s1, _, _, h2⟩ := return_output_result E _ r0 hro
    have hprops : r0.1 ≠ NextResult.StopIteration ∧ r0.2.index = c.index := by
      rcases h2 with ⟨v, _, h3⟩ | ⟨_, h3⟩
      · subst h3; exact ⟨by simp, rfl⟩
      · subst h3; exact ⟨by simp, rfl⟩
    refine ⟨fun _ => ⟨r0.2, hc1.symm, by rw [hprops.2]; exact h1, ?_⟩,
      fun h => absurd (hr.trans h) hprops.1⟩
    rw [next_pending E c r0 hv hro, ← hr]
  | none =>
    have hro1 : return_output E (onFirstChunk T k c) = none := by
      rw [return_output_first, hro]; rfl
    rw [next_advance E _ hv1 hro1 (((k : Int) - (c.index + 1)).toNat) (le_refl _)] at h
    have hc2 : OverText E T { c with index := c.index + 1 } := hc
    obtain ⟨i1, i2⟩ := while_loop_first E T k hk _ { c with index := c.index + 1 } hc2
      (by simp only; omega) (by simp only; omega) (le_refl _) r c1 h
    have hn := next_advance E c hv hro _ (le_refl _)
    refine ⟨fun hne => ?_, fun hr => ?_⟩
    · obtain ⟨c3, e1, e2, e3⟩ := i1 hne
      exact ⟨c3, e1, e2, by rw [hn]; exact e3 _ (le_refl _)⟩
    · obtain ⟨st, e1, e3⟩ := i2 hr
      refine ⟨st, e1, ?_⟩
      have hvk : ({ c with index := (k : Int) - 1, state := st } : AutomatonSearchIter).version =
          E.automaton.version := hv
      have hrok : return_output E { c with index := (k : Int) - 1, state := st } = none := by
        rw [return_output_none] at hro ⊢
        exact hro
      rw [hn, e3 _ (le_refl _),
        next_advance E _ hvk hrok (c.end_ - (c.index + 1)).toNat (by simp only; omega)]
      have e : ((k : Int) - 1 + 1) = (k : Int) := by omega
      simp only [e]

theorem set_after_first (E : Env) (T : List Nat) (k : Nat) (hk : k ≤ T.length)
    (c : AutomatonSearchIter) (hc : OverText E T c) (st : Option Nat) (args : List PyObject)
    (h0 : args[0]? = some (PyObject.bytes (T.drop k)))
    (hflag : args[1]? = none ∨ ∃ f, args[1]? = some f ∧ PyObject_IsTrue f = 0) :
    automaton_search_iter_set E { onFirstChunk T k c with index := (k : Int), state := st } args =
      (SetResult.None, onSecondChunk T k { c with index := (k : Int) - 1, state := st }) := by
  have hf : (args[1]? = none ∧ false = false) ∨
      ∃ f, args[1]? = some f ∧ PyObject_IsTrue f = (if false = true then 1 else 0) := by
    rcases hflag with h | ⟨f, h1, h2⟩
    · exact Or.inl ⟨h, rfl⟩
    · exact Or.inr ⟨f, h1, by simpa using h2⟩
  rw [set_buffer E _ args (PyObject.bytes (T.drop k)) false h0 rfl hf]
  have hu : c.is_unicode = false := hc.2.2.1
  have hk0 : (0 : Int) ≤ (k : Int) := Int.ofNat_nonneg k
  simp only [onFirstChunk, onSecondChunk, PyObject.isUnicode, PyObject.len, Bool.false_eq_true,
    if_false, List.length_drop, Prod.mk.injEq, AutomatonSearchIter.mk.injEq, true_and, hu,
    ge_iff_le, if_pos hk0]
  refine ⟨by omega, by omega⟩

/-! ### Streaming equivalence -/

theorem drain_tuple (E : Env) (fuel : Nat) (c c1 : AutomatonSearchIter) (p : Int) (v : Payload)
    (h : automaton_search_iter_next E c = (NextResult.tuple p v, c1)) :
    drain E (fuel + 1) c = (drain E fuel c1).map (fun r => ((p, v) :: r.1, r.2)) := by
  rw [drain, h]

theorem drain_end (E : Env) (fuel : Nat) (c c1 : AutomatonSearchIter) (r : NextResult)
    (h : automaton_search_iter_next E c = (r, c1)) (hr : ∀ p v, r ≠ NextResult.tuple p v) :
    drain E (fuel + 1) c = some ([], r, c1) := by
  rw [drain, h]
  cases r with
  | tuple p v => exact absurd rfl (hr p v)
  | StopIteration => rfl
  | ValueError_changed => rfl
  | ValueError_inconsistent => rfl
  | assert_failed => rfl
  | bad_read => rfl

theorem drain_congr (E : Env) (c d : AutomatonSearchIter)
    (h : automaton_search_iter_next E c = automaton_search_iter_next E d) (fuel : Nat) :
    drain E fuel c = drain E fuel d := by
  cases fuel with
  | zero => rfl
  | succ n => rw [drain, drain, h]

theorem split_of_whole (E : Env) (T : List Nat) (k : Nat) (hk : k ≤ T.length)
    (args : List PyObject) (ha : args[0]? = some (PyObject.bytes (T.drop k)))
    (hflag : args[1]? = none ∨ ∃ f, args[1]? = some f ∧ PyObject_IsTrue f = 0) :
    ∀ (fuel : Nat) (c : AutomatonSearchIter), OverText E T c → -1 ≤ c.index →
      c.index < (k : Int) →
      ∀ (rs : List (Int × Payload)) (cw : AutomatonSearchIter),
        drain E fuel c = some (rs, NextResult.StopIteration, cw) →
        ∃ f1 f2 rs1 rs2 c1 c2,
          drain E f1 (onFirstChunk T k c) = some (rs1, NextResult.StopIteration, c1) ∧
          drain E f2 (automaton_search_iter_set E c1 args).2 =
            some (rs2, NextResult.StopIteration, c2) ∧
          rs = rs1 ++ rs2 := by
  intro fuel
  induction fuel with
  | zero => intro c _ _ _ rs cw h; simp [drain] at h
  | succ n ih =>
    intro c hc h0 h1 rs cw h
    cases hn1 : automaton_search_iter_next E (onFirstChunk T k c) with
    | mk r c1 =>
      obtain ⟨i1, i2⟩ := next_first E T k hk c hc h0 h1 r c1 hn1
      by_cases hr : r = NextResult.StopIteration
      · obtain ⟨st, e1, e2⟩ := i2 hr
        subst hr
        have hc3 : OverText E T { c with index := (k : Int) - 1, state := st } := hc
        have hd := drain_second E T k (n + 1) _ hc3 (le_refl _)
        rw [← drain_congr E c _ e2 (n + 1), h] at hd
        refine ⟨1, n + 1, [], rs, c1, onSecondChunk T k cw,
          drain_end E 0 _ c1 _ hn1 (by simp), ?_, rfl⟩
        rw [e1, set_after_first E T k hk c hc st args ha hflag]
        exact hd
      · obtain ⟨c2, e1, e2, e3⟩ := i1 hr
        obtain ⟨hf, hi, _, _⟩ := next_spec E c r c2 hc.1 e3
        cases r with
        | tuple p v =>
          rw [drain_tuple E n c c2 p v e3] at h
          cases hd : drain E n c2 with
          | none => rw [hd] at h; simp at h
          | some x =>
            rw [hd] at h
            simp only [Option.map_some', Option.some.injEq, Prod.mk.injEq] at h
            obtain ⟨hrs, hx⟩ := h
            have hd2 : drain E n c2 = some (x.1, NextResult.StopIteration, cw) := by
              rw [hd, ← hx]
            obtain ⟨f1, f2, rs1, rs2, d1, d2, g1, g2, g3⟩ :=
              ih c2 (overText_of_frame E T c c2 hc hf) (by omega) e2 x.1 cw hd2
            refine ⟨f1 + 1, f2, (p, v) :: rs1, rs2, d1, d2, ?_, g2, ?_⟩
            · rw [drain_tuple E f1 _ (onFirstChunk T k c2) p v (by rw [hn1, e1]), g1]
              rfl
            · rw [← hrs, g3]
              rfl
        | StopIteration => exact absurd rfl hr
        | ValueError_changed =>
          rw [drain_end E n c c2 _ e3 (by simp)] at h
          simp at h
        | ValueError_inconsistent =>
          rw [drain_end E n c c2 _ e3 (by simp)] at h
          simp at h
        | assert_failed =>
          rw [drain_end E n c c2 _ e3 (by simp)] at h
          simp at h
        | bad_read =>
          rw [drain_end E n c c2 _ e3 (by simp)] at h
          simp at h

theorem whole_of_split (E : Env) (T : List Nat) (k : Nat) (hk : k ≤ T.length)
    (args : List PyObject) (ha : args[0]? = some (PyObject.bytes (T.drop k)))
    (hflag : args[1]? = none ∨ ∃ f, args[1]? = some f ∧ PyObject_IsTrue f = 0) :
    ∀ (f1 : Nat) (c : AutomatonSearchIter), OverText E T c → -1 ≤ c.index →
      c.index < (k : Int) →
      ∀ (rs1 rs2 : List (Int × Payload)) (c1 c2 : AutomatonSearchIter) (f2 : Nat),
        drain E f1 (onFirstChunk T k c) = some (rs1, NextResult.StopIteration, c1) →
        drain E f2 (automaton_search_iter_set E c1 args).2 =
          some (rs2, NextResult.StopIteration, c2) →
        ∃ f cw, drain E f c = some (rs1 ++ rs2, NextResult.StopIteration, cw) := by
  intro f1
  induction f1 with
  | zero => intro c _ _ _ rs1 rs2 c1 c2 f2 h; simp [drain] at h
  | succ n ih =>
    intro c hc h0 h1 rs1 rs2 c1 c2 f2 h hsec
    cases hn1 : automaton_search_iter_next E (onFirstChunk T k c) with
    | mk r d1 =>
      obtain ⟨i1, i2⟩ := next_first E T k hk c hc h0 h1 r d1 hn1
      by_cases hr : r = NextResult.StopIteration
      · obtain ⟨st, e1, e2⟩ := i2 hr
        subst hr
        rw [drain_end E n _ d1 _ hn1 (by simp)] at h
        simp only [Option.some.injEq, Prod.mk.injEq, true_and] at h
        obtain ⟨hrs, hd1⟩ := h
        subst hrs hd1
        have hc3 : OverText E T { c with index := (k : Int) - 1, state := st } := hc
        rw [e1, set_after_first E T k hk c hc st args ha hflag] at hsec
        simp only at hsec
        rw [drain_second E T k f2 _ hc3 (le_refl _), ← drain_congr E c _ e2 f2] at hsec
        cases hd : drain E f2 c with
        | none => rw [hd] at hsec; simp at hsec
        | some x =>
          rw [hd] at hsec
          simp only [Option.map_some', Option.some.injEq, Prod.mk.injEq] at hsec
          refine ⟨f2, x.2.2, ?_⟩
          rw [hd, List.nil_append, ← hsec.1, ← hsec.2.1]
      · obtain ⟨d2, e1, e2, e3⟩ := i1 hr
        obtain ⟨hf, hi, _, _⟩ := next_spec E c r d2 hc.1 e3
        cases r with
        | tuple p v =>
          rw [drain_tuple E n _ d1 p v hn1] at h
          cases hd : drain E n d1 with
          | none => rw [hd] at h; simp at h
          | some x =>
            rw [hd] at h
            simp only [Option.map_some', Option.some.injEq, Prod.mk.injEq] at h
            obtain ⟨hrs, hx⟩ := h
            have hd2 : drain E n (onFirstChunk T k d2) =
                some (x.1, NextResult.StopIteration, c1) := by
              rw [← e1, hd, ← hx]
            obtain ⟨f, cw, g⟩ :=
              ih d2 (overText_of_frame E T c d2 hc hf) (by omega) e2 x.1 rs2 c1 c2 f2 hd2 hsec
            refine ⟨f + 1, cw, ?_⟩
            rw [drain_tuple E f c d2 p v e3, g, ← hrs]
            rfl
        | StopIteration => exact absurd rfl hr
        | ValueError_changed =>
          rw [drain_end E n _ d1 _ hn1 (by simp)] at h
          simp at h
        | ValueError_inconsistent =>
          rw [drain_end E n _ d1 _ hn1 (by simp)] at h
          simp at h
        | assert_failed =>
          rw [drain_end E n _ d1 _ hn1 (by simp)] at h
          simp at h
        | bad_read =>
          rw [drain_end E n _ d1 _ hn1 (by simp)] at h
          simp at h

/-- C2. For any automaton, narrow text `T` and split point `k ≤ len T`: a new
iterator over the whole of `T` runs to the end of the sequence with the tuples
`rs` exactly when a new iterator over the chunk `T[0..k)` runs to the end of
the sequence with some tuples `rs1`, and, after `automaton_search_iter_set`
with the chunk `T[k..)` and a flag that is absent or false, runs again to
the end of the sequence with some tuples `rs2`, where `rs = rs1 ++ rs2`.
Positions and payloads are compared as they are yielded, so the positions of
the second chunk are those in `T`. -/
theorem streaming_equivalence (E : Env) (T : List Nat) (k : Nat) (hk : k ≤ T.length)
    (args : List PyObject) (ha : args[0]? = some (PyObject.bytes (T.drop k)))
    (hflag : args[1]? = none ∨ ∃ f, args[1]? = some f ∧ PyObject_IsTrue f = 0)
    (rs : List (Int × Payload)) :
    (∃ f c, drain E f (automaton_search_iter_new E (PyObject.bytes T) 0 (T.length : Int) false) =
      some (rs, NextResult.StopIteration, c)) ↔
    (∃ f1 f2 rs1 rs2 c1 c2,
      drain E f1 (automaton_search_iter_new E (PyObject.bytes (T.take k)) 0 (k : Int) false) =
        some (rs1, NextResult.StopIteration, c1) ∧
      drain E f2 (automaton_search_iter_set E c1 args).2 =
        some (rs2, NextResult.StopIteration, c2) ∧
      rs = rs1 ++ rs2) := by
  have hc : OverText E T
      (automaton_search_iter_new E (PyObject.bytes T) 0 (T.length : Int) false) :=
    ⟨rfl, rfl, rfl, rfl⟩
  have hi : (automaton_search_iter_new E (PyObject.bytes T) 0 (T.length : Int) false).index =
      -1 := by
    simp [automaton_search_iter_new]
  have hfirst : automaton_search_iter_new E (PyObject.bytes (T.take k)) 0 (k : Int) false =
      onFirstChunk T k
        (automaton_search_iter_new E (PyObject.bytes T) 0 (T.length : Int) false) := rfl
  rw [hfirst]
  constructor
  · rintro ⟨f, c, h⟩
    exact split_of_whole E T k hk args ha hflag f _ hc (by rw [hi]) (by rw [hi]; omega) rs c h
  · rintro ⟨f1, f2, rs1, rs2, c1, c2, h1, h2, h3⟩
    rw [h3]
    exact whole_of_split E T k hk args ha hflag f1 _ hc (by rw [hi]) (by rw [hi]; omega)
      rs1 rs2 c1 c2 f2 h1 h2

set_option maxRecDepth 100000 in
/-- C2 at an instance: the text `ushers` of the scenario split after `ush`, so
that `she` and `he` straddle the split. The first chunk gives no tuple, the
second gives all three at their positions in the whole text, and the theorem
gives the same three for the whole text. -/
theorem streaming_equivalence_witness :
    3 ≤ (ascii "ushers").length ∧
    outcome (drain ushersEnv 1
      (automaton_search_iter_new ushersEnv (PyObject.bytes ((ascii "ushers").take 3)) 0 3 false)) =
      some ([], NextResult.StopIteration) ∧
    outcome (drain ushersEnv 4
      (automaton_search_iter_set ushersEnv
        (automaton_search_iter_next ushersEnv
          (automaton_search_iter_new ushersEnv (PyObject.bytes ((ascii "ushers").take 3))
            0 3 false)).2
        [PyObject.bytes ((ascii "ushers").drop 3), PyFalse]).2) =
      some ([(3, Payload.integer 3), (3, Payload.integer 2), (5, Payload.integer 4)],
        NextResult.StopIteration) ∧
    ∃ f c, drain ushersEnv f
      (automaton_search_iter_new ushersEnv (PyObject.bytes (ascii "ushers")) 0 6 false) =
      some ([(3, Payload.integer 3), (3, Payload.integer 2), (5, Payload.integer 4)],
        NextResult.StopIteration, c) :=
  ⟨by decide, by decide, by decide,
   (streaming_equivalence ushersEnv (ascii "ushers") 3 (by decide)
      [PyObject.bytes ((ascii "ushers").drop 3), PyFalse] rfl (Or.inr ⟨PyFalse, rfl, rfl⟩)
      [(3, Payload.integer 3), (3, Payload.integer 2), (5, Payload.integer 4)]).mpr
     ⟨1, 4, [], [(3, Payload.integer 3), (3, Payload.integer 2), (5, Payload.integer 4)],
      (automaton_search_iter_next ushersEnv
        (automaton_search_iter_new ushersEnv (PyObject.bytes ((ascii "ushers").take 3))
          0 3 false)).2,
      afterPulls ushersEnv 4
        (automaton_search_iter_set ushersEnv
          (automaton_search_iter_next ushersEnv
            (automaton_search_iter_new ushersEnv (PyObject.bytes ((ascii "ushers").take 3))
              0 3 false)).2
          [PyObject.bytes ((ascii "ushers").drop 3), PyFalse]).2,
      by decide, by decide, rfl⟩⟩

/-! ### The iterator against the reference scan -/

set_option maxRecDepth 100000 in
/-- C1, evaluated. With the patterns `abc` and `b`, a new iterator over the text
`ab` yields nothing before the end of the sequence, while `b` ends at position
`1`. With the patterns `abc`, `bcx` and `c`, a new iterator over `abc` yields
only `abc` at position `2`, while `c` ends there too. -/
theorem iterator_misses_occurrences :
    outcome (drain (buildEnv innerPatterns 0 false) 3
      (automaton_search_iter_new (buildEnv innerPatterns 0 false)
        (PyObject.bytes (ascii "ab")) 0 2 false)) = some ([], NextResult.StopIteration) ∧
    bruteForce innerPatterns (ascii "ab") = [(1, Payload.integer 1)] ∧
    outcome (drain (buildEnv gapPatterns 0 false) 3
      (automaton_search_iter_new (buildEnv gapPatterns 0 false)
        (PyObject.bytes (ascii "abc")) 0 3 false)) =
      some ([(2, Payload.integer 3)], NextResult.StopIteration) ∧
    bruteForce gapPatterns (ascii "abc") = [(2, Payload.integer 3), (2, Payload.integer 1)] := by
  decide

/-! ### What one call can return -/

/-- A tuple returned by the loop comes from the node the state has just
reached, at the index the loop stopped at. -/
theorem while_loop_tuple (E : Env) :
    ∀ (fuel : Nat) (c : AutomatonSearchIter) (p : Int) (v : Payload) (c1 : AutomatonSearchIter),
      while_loop E fuel c = (NextResult.tuple p v, c1) →
      c.index ≤ c1.index ∧ c1.index < c1.end_ ∧
      ∃ s, c1.state = some s ∧ (E.node s).eow = true ∧
        payloadOf E.automaton.kind (E.node s) = some v ∧
        p = c1.index + c1.shift ∧ c1.output = (E.node s).fail := by
  intro fuel
  induction fuel with
  | zero =>
    intro c p v c1 h
    simp [while_loop] at h
  | succ n ih =>
    intro c p v c1 h
    rw [while_loop] at h
    by_cases hlt : c.index < c.end_
    · simp only [if_pos hlt] at h
      cases hb : loop_body E c with
      | inl r0 =>
        rw [hb] at h
        simp only at h
        rcases loop_body_inl E c r0 hb with ⟨_, h1⟩ | ⟨raw, _, _, h1⟩ | ⟨raw, s, _, _, _, h1⟩
        · rw [h1] at h; simp at h
        · rw [h1] at h; simp at h
        · obtain ⟨s1, hs1, he1, h2⟩ := return_output_result E _ r0 h1
          simp only [Option.some.injEq] at hs1
          subst hs1
          rcases h2 with ⟨v1, hv1, h3⟩ | ⟨_, h3⟩
          · rw [h3, Prod.mk.injEq] at h
            obtain ⟨hr, hc⟩ := h
            simp only [NextResult.tuple.injEq] at hr
            obtain ⟨hp, hv⟩ := hr
            subst hc hv
            exact ⟨le_refl _, hlt, s, rfl, he1, hv1, hp.symm, rfl⟩
          · rw [h3] at h; simp at h
      | inr c2 =>
        rw [hb] at h
        simp only at h
        obtain ⟨raw, s, _, _, _, hc2⟩ := loop_body_inr E c c2 hb
        obtain ⟨hi, rest⟩ := ih c2 p v c1 h
        subst hc2
        simp only at hi
        exact ⟨by omega, rest⟩
    · simp [if_neg hlt] at h

theorem next_current_of_tuple (E : Env) (c c1 : AutomatonSearchIter) (p : Int) (v : Payload)
    (h : automaton_search_iter_next E c = (NextResult.tuple p v, c1)) :
    c.version = E.automaton.version := by
  by_contra hne
  rw [next_stale E c hne] at h
  simp at h

/-- A tuple returned by a call: its position is the index plus the shift the
call leaves, and its payload is that of an end-of-word node, which is either
the node the output pointer was at (the index is then not moved) or the node
the state has just reached (the index is then moved forward, below the end). -/
theorem next_tuple (E : Env) (c c1 : AutomatonSearchIter) (p : Int) (v : Payload)
    (h : automaton_search_iter_next E c = (NextResult.tuple p v, c1)) :
    SameFrame c c1 ∧ c.index ≤ c1.index ∧ p = c1.index + c1.shift ∧
    ∃ s, (E.node s).eow = true ∧ payloadOf E.automaton.kind (E.node s) = some v ∧
      c1.output = (E.node s).fail ∧
      ((c.output = some s ∧ c1.index = c.index ∧ c1.state = c.state) ∨
       (return_output E c = none ∧ c1.state = some s ∧ c.index < c1.index ∧
          c1.index < c1.end_)) := by
  have hv := next_current_of_tuple E c c1 p v h
  obtain ⟨hf, hi, _, _⟩ := next_spec E c _ c1 hv h
  refine ⟨hf, hi, ?_⟩
  cases hro : return_output E c with
  | some r0 =>
    rw [next_pending E c r0 hv hro] at h
    obtain ⟨s, hs, he, h2⟩ := return_output_result E _ r0 hro
    rcases h2 with ⟨v1, hv1, h3⟩ | ⟨_, h3⟩
    · rw [h3, Prod.mk.injEq] at h
      obtain ⟨hr, hc⟩ := h
      simp only [NextResult.tuple.injEq] at hr
      obtain ⟨hp, hvv⟩ := hr
      subst hc hvv
      exact ⟨hp.symm, s, he, hv1, rfl, Or.inl ⟨hs, rfl, rfl⟩⟩
    · rw [h3] at h; simp at h
  | none =>
    rw [next_advance E c hv hro _ (le_refl _)] at h
    obtain ⟨hi2, hlt, s, hs, he, hpv, hp, ho⟩ := while_loop_tuple E _ _ p v c1 h
    simp only at hi2
    exact ⟨hp, s, he, hpv, ho, Or.inr ⟨rfl, hs, by omega, hlt⟩⟩

theorem pending_iff (E : Env) (c : AutomatonSearchIter) :
    Pending E c ↔ return_output E c ≠ none := by
  unfold Pending
  constructor
  · rintro ⟨s, hs, he⟩ h
    have := (return_output_none E c).1 h s hs
    simp [he] at this
  · intro h
    cases hro : return_output E c with
    | none => exact absurd hro h
    | some r =>
      obtain ⟨s, hs, he, _⟩ := return_output_result E c r hro
      exact ⟨s, hs, he⟩

/-- If a chain is pending when the loop returns and none was when it was
entered, the loop has stopped at an index below the end. -/
theorem while_loop_pending_after (E : Env) :
    ∀ (fuel : Nat) (c : AutomatonSearchIter) (r : NextResult) (c1 : AutomatonSearchIter),
      while_loop E fuel c = (r, c1) → ¬ Pending E c → Pending E c1 →
      c.index ≤ c1.index ∧ c1.index < c1.end_ := by
  intro fuel
  induction fuel with
  | zero =>
    intro c r c1 h hn hp
    simp only [while_loop, Prod.mk.injEq] at h
    obtain ⟨_, hc⟩ := h
    subst hc
    exact absurd hp hn
  | succ n ih =>
    intro c r c1 h hn hp
    rw [while_loop] at h
    by_cases hlt : c.index < c.end_
    · simp only [if_pos hlt] at h
      cases hb : loop_body E c with
      | inl r0 =>
        rw [hb] at h
        simp only at h
        rcases loop_body_inl E c r0 hb with ⟨_, h1⟩ | ⟨raw, _, _, h1⟩ | ⟨raw, s, _, _, _, h1⟩
        · rw [h1, Prod.mk.injEq] at h
          obtain ⟨_, hc⟩ := h
          subst hc
          exact absurd hp hn
        · rw [h1, Prod.mk.injEq] at h
          obtain ⟨_, hc⟩ := h
          subst hc
          exact absurd hp hn
        · obtain ⟨s1, _, _, h2⟩ := return_output_result E _ r0 h1
          rcases h2 with ⟨v1, _, h3⟩ | ⟨_, h3⟩
          · rw [h3, Prod.mk.injEq] at h
            obtain ⟨_, hc⟩ := h
            subst hc
            exact ⟨le_refl _, hlt⟩
          · rw [h3, Prod.mk.injEq] at h
            obtain ⟨_, hc⟩ := h
            subst hc
            exact ⟨le_refl _, hlt⟩
      | inr c2 =>
        rw [hb] at h
        simp only at h
        obtain ⟨raw, s, _, _, _, hc2⟩ := loop_body_inr E c c2 hb
        have hn2 : ¬ Pending E c2 := by
          subst hc2
          exact hn
        obtain ⟨i1, i2⟩ := ih c2 r c1 h hn2 hp
        subst hc2
        simp only at i1
        exact ⟨by omega, i2⟩
    · simp only [if_neg hlt, Prod.mk.injEq] at h
      obtain ⟨_, hc⟩ := h
      subst hc
      exact absurd hp hn

/-- If a chain is pending after a call, either one was pending before it and
the index has not moved, or the index has moved forward to a place below the
end. -/
theorem next_pending_after (E : Env) (c c1 : AutomatonSearchIter) (r : NextResult)
    (h : automaton_search_iter_next E c = (r, c1)) (hp : Pending E c1) :
    (Pending E c ∧ c1.index = c.index) ∨ (c.index < c1.index ∧ c1.index < c1.end_) := by
  by_cases hv : c.version = E.automaton.version
  · cases hro : return_output E c with
    | some r0 =>
      rw [next_pending E c r0 hv hro] at h
      have hpc : Pending E c := (pending_iff E c).2 (by rw [hro]; simp)
      obtain ⟨s, _, _, h2⟩ := return_output_result E _ r0 hro
      rcases h2 with ⟨v1, _, h3⟩ | ⟨_, h3⟩
      · rw [h3, Prod.mk.injEq] at h
        obtain ⟨_, hc⟩ := h
        subst hc
        exact Or.inl ⟨hpc, rfl⟩
      · rw [h3, Prod.mk.injEq] at h
        obtain ⟨_, hc⟩ := h
        subst hc
        exact Or.inl ⟨hpc, rfl⟩
    | none =>
      rw [next_advance E c hv hro _ (le_refl _)] at h
      have hn : ¬ Pending E { c with index := c.index + 1 } := by
        intro hq
        exact (pending_iff E c).1 hq hro
      obtain ⟨i1, i2⟩ := while_loop_pending_after E _ _ r c1 h hn hp
      simp only at i1
      exact Or.inr ⟨by omega, i2⟩
  · rw [next_stale E c hv, Prod.mk.injEq] at h
    obtain ⟨_, hc⟩ := h
    subst hc
    exact Or.inl ⟨hp, rfl⟩

/-! ### Results of a scan of a sub-range -/

/-- While the shift is `0` and a pending chain implies that the index is in
`[start, end)`, every tuple of a sequence of calls has its position in
`[start, end)` and the payload of an end-of-word node. -/
theorem pulls_in_range (E : Env) (start : Int) :
    ∀ (n : Nat) (c : AutomatonSearchIter), c.shift = 0 → start - 1 ≤ c.index →
      (Pending E c → start ≤ c.index ∧ c.index < c.end_) →
      ∀ (p : Int) (v : Payload), NextResult.tuple p v ∈ pulls E n c →
        start ≤ p ∧ p < c.end_ ∧
        ∃ s, (E.node s).eow = true ∧ payloadOf E.automaton.kind (E.node s) = some v := by
  intro n
  induction n with
  | zero => intro c _ _ _ p v h; simp [pulls] at h
  | succ k ih =>
    intro c hs hi hp p v h
    cases hn : automaton_search_iter_next E c with
    | mk r c1 =>
      have hframe : c1.shift = c.shift ∧ c1.end_ = c.end_ ∧ c.index ≤ c1.index := by
        by_cases hv : c.version = E.automaton.version
        · obtain ⟨⟨_, _, _, f4, f5⟩, hi2, _, _⟩ := next_spec E c r c1 hv hn
          exact ⟨f4, f5, hi2⟩
        · rw [next_stale E c hv, Prod.mk.injEq] at hn
          obtain ⟨_, hc⟩ := hn
          subst hc
          exact ⟨rfl, rfl, le_refl _⟩
      obtain ⟨f4, f5, hi2⟩ := hframe
      have hp1 : Pending E c1 → start ≤ c1.index ∧ c1.index < c1.end_ := by
        intro hq
        rcases next_pending_after E c c1 r hn hq with ⟨hq0, he⟩ | ⟨h1, h2⟩
        · obtain ⟨a, b⟩ := hp hq0
          rw [he, f5]
          exact ⟨a, b⟩
        · exact ⟨by omega, h2⟩
      simp only [pulls, hn, List.mem_cons] at h
      rcases h with h | h
      · subst h
        obtain ⟨_, _, hpos, s, he, hpv, _, hcase⟩ := next_tuple E c c1 p v hn
        refine ⟨?_, ?_, s, he, hpv⟩
        · rcases hcase with ⟨ho, hidx, _⟩ | ⟨_, _, h1, _⟩
          · have := (hp ⟨s, ho, he⟩).1
            omega
          · omega
        · rcases hcase with ⟨ho, hidx, _⟩ | ⟨_, _, _, h2⟩
          · have := (hp ⟨s, ho, he⟩).2
            omega
          · omega
      · obtain ⟨a, b, c'⟩ := ih c1 (by rw [f4, hs]) (by omega) hp1 p v h
        exact ⟨a, by rw [← f5]; exact b, c'⟩

/-- C18. Every tuple that successive calls on a new iterator made with
`start` and `end` return, with no `automaton_search_iter_set` in between, has
a position `p` with `start ≤ p < end`, and its payload is the payload of an
end-of-word node. This holds whatever `start` and `end` are, so in particular
when `0 ≤ start ≤ end`. -/
theorem subrange_results (E : Env) (buf : PyObject) (start end_ : Int) ( is_unicode : Bool)
    (n : Nat) (p : Int) (v : Payload)
    (h : NextResult.tuple p v ∈
      pulls E n (automaton_search_iter_new E buf start end_ is_unicode)) :
    start ≤ p ∧ p < end_ ∧
    ∃ s, (E.node s).eow = true ∧ payloadOf E.automaton.kind (E.node s) = some v := by
  refine pulls_in_range E start n (automaton_search_iter_new E buf start end_ is_unicode)
    rfl (le_refl _) ?_ p v h
  rintro ⟨s, hs, _⟩
  simp [automaton_search_iter_new] at hs

set_option maxRecDepth 100000 in
/-- C18 at an instance: the text `ushers` scanned over `[1, 4)` gives `she` and
`he` at position `3`; the theorem places the first of them in the range. -/
theorem subrange_results_witness :
    pulls ushersEnv 3 (automaton_search_iter_new ushersEnv (PyObject.bytes (ascii "ushers"))
      1 4 false) =
      [NextResult.tuple 3 (Payload.integer 3), NextResult.tuple 3 (Payload.integer 2),
       NextResult.StopIteration] ∧
    ((1 : Int) ≤ 3 ∧ (3 : Int) < 4 ∧
      ∃ s, (ushersEnv.node s).eow = true ∧
        payloadOf ushersEnv.automaton.kind (ushersEnv.node s) = some (Payload.integer 3)) :=
  ⟨by decide,
   subrange_results ushersEnv (PyObject.bytes (ascii "ushers")) 1 4 false
     3 3 (Payload.integer 3) (by decide)⟩

/-! ### Reads stay inside the buffer -/

/-- The passes counted are the places the index moves by, plus the pass the
loop returns from, if it returns from inside its body. -/
theorem while_loop_passes_index (E : Env) :
    ∀ (fuel : Nat) (c : AutomatonSearchIter),
      (while_loop E fuel c).2.index - c.index ≤ (while_loop_passes E fuel c : Int) ∧
      (while_loop_passes E fuel c : Int) ≤ (while_loop E fuel c).2.index - c.index + 1 := by
  intro fuel
  induction fuel with
  | zero => intro c; simp [while_loop_passes, while_loop]
  | succ n ih =>
    intro c
    rw [while_loop_passes, while_loop]
    by_cases hlt : c.index < c.end_
    · rw [if_pos hlt, if_pos hlt]
      cases hb : loop_body E c with
      | inl r =>
        simp only
        rw [(loop_body_inl_index E c r hb).2]
        simp
      | inr c1 =>
        simp only
        obtain ⟨raw, s, _, _, _, hc1⟩ := loop_body_inr E c c1 hb
        obtain ⟨i1, i2⟩ := ih c1
        have hidx : c1.index = c.index + 1 := by subst hc1; rfl
        push_cast
        omega
    · rw [if_neg hlt, if_neg hlt]
      simp

theorem foldl_slice_succ (f : Option Nat → Nat → Option Nat) (a : Option Nat) (T : List Nat)
    (s i : Nat) (hs : s ≤ i) (hi : i < T.length) :
    ((T.take (i + 1)).drop s).foldl f a = f (((T.take i).drop s).foldl f a) T[i] := by
  rw [List.take_succ, List.getElem?_eq_getElem hi]
  simp only [Option.toList]
  rw [List.drop_append_of_le_length (by rw [List.length_take]; omega), List.foldl_append]
  rfl

theorem loop_body_narrow (E : Env) (T : List Nat) (s e : Nat) (he : e ≤ T.length)
    (hb : ∀ b ∈ T, b < 256) (c : AutomatonSearchIter) (j : Nat)
    (hc : NarrowScan E T s e c j) (hi : c.index = (j : Int)) (hj : j < e) :
    ∃ raw, readUnit c = some raw ∧
      consume (NEXT E) E.Py_UNICODE_WIDE c.is_unicode c.state raw =
        ((T.take (j + 1)).drop s).foldl (NEXT E) E.automaton.root := by
  obtain ⟨_, ho, hu, _, hs, _, hst⟩ := hc
  have hjT : j < T.length := by omega
  refine ⟨T[j], ?_, ?_⟩
  · unfold readUnit
    rw [if_neg (by omega), hu, ho]
    simp only [hi, Int.toNat_ofNat]
    exact List.getElem?_eq_getElem hjT
  · rw [foldl_slice_succ (NEXT E) _ T s j hs hjT, ← hst, hu]
    unfold consume
    simp only [Bool.false_eq_true, if_false]
    rw [Nat.mod_eq_of_lt (by have := hb T[j] (List.getElem_mem hjT); omega)]

/-- The loop over a narrow text, entered at the index `j` with the state of the
bytes before `j`: at the end-of-sequence signal the state is that of all the
bytes of the range and the index is the end; at a tuple the state is that of
the bytes up to and including the index. -/
theorem while_loop_narrow (E : Env) (T : List Nat) (s e : Nat) (he : e ≤ T.length)
    (hb : ∀ b ∈ T, b < 256) :
    ∀ (fuel : Nat) (c : AutomatonSearchIter) (j : Nat), NarrowScan E T s e c j →
      c.index = (j : Int) → e - j ≤ fuel →
      ∀ (r : NextResult) (c1 : AutomatonSearchIter), while_loop E fuel c = (r, c1) →
        (r = NextResult.StopIteration → NarrowScan E T s e c1 e ∧ c1.index = (e : Int)) ∧
        (∀ p v, r = NextResult.tuple p v →
          ∃ j1, NarrowScan E T s e c1 j1 ∧ c1.index + 1 = (j1 : Int)) := by
  intro fuel
  induction fuel with
  | zero =>
    intro c j hc hi hf r c1 h
    simp only [while_loop, Prod.mk.injEq] at h
    obtain ⟨hr, hc1⟩ := h
    subst hr hc1
    have hje : j = e := by have := hc.2.2.2.2.2.1; omega
    subst hje
    exact ⟨fun _ => ⟨hc, hi⟩, fun p v h => by simp at h⟩
  | succ n ih =>
    intro c j hc hi hf r c1 h
    have hend : c.end_ = (e : Int) := hc.2.2.2.1
    rw [while_loop] at h
    by_cases hlt : c.index < c.end_
    · have hj : j < e := by omega
      obtain ⟨raw, hraw, hcons⟩ := loop_body_narrow E T s e he hb c j hc hi hj
      simp only [if_pos hlt] at h
      have hnew : ∀ (st out : Option Nat) (idx : Int),
          st = ((T.take (j + 1)).drop s).foldl (NEXT E) E.automaton.root →
          NarrowScan E T s e { c with state := st, output := out, index := idx } (j + 1) := by
        intro st out idx hst
        obtain ⟨k1, k2, k3, k4, k5, _, _⟩ := hc
        exact ⟨k1, k2, k3, k4, by omega, by omega, hst⟩
      cases hbody : loop_body E c with
      | inl r0 =>
        rw [hbody] at h
        simp only at h
        rcases loop_body_inl E c r0 hbody with ⟨_, h1⟩ | ⟨raw1, _, _, h1⟩ |
          ⟨raw1, s1, hraw1, hs1, _, h1⟩
        · rw [h1, Prod.mk.injEq] at h
          obtain ⟨hr, _⟩ := h
          subst hr
          exact ⟨fun h => by simp at h, fun p v h => by simp at h⟩
        · rw [h1, Prod.mk.injEq] at h
          obtain ⟨hr, _⟩ := h
          subst hr
          exact ⟨fun h => by simp at h, fun p v h => by simp at h⟩
        · rw [hraw, Option.some.injEq] at hraw1
          subst hraw1
          rw [hcons] at hs1
          obtain ⟨s2, _, _, h2⟩ := return_output_result E _ r0 h1
          rcases h2 with ⟨v1, _, h3⟩ | ⟨_, h3⟩
          · rw [h3, Prod.mk.injEq] at h
            obtain ⟨hr, hc1⟩ := h
            subst hr hc1
            refine ⟨fun h => by simp at h, fun p v _ => ⟨j + 1, ?_, ?_⟩⟩
            · exact hnew (some s1) _ c.index hs1.symm
            · simp only [hi]
              push_cast
              rfl
          · rw [h3, Prod.mk.injEq] at h
            obtain ⟨hr, _⟩ := h
            subst hr
            exact ⟨fun h => by simp at h, fun p v h => by simp at h⟩
      | inr c2 =>
        rw [hbody] at h
        simp only at h
        obtain ⟨raw1, s1, hraw1, hs1, _, hc2⟩ := loop_body_inr E c c2 hbody
        rw [hraw, Option.some.injEq] at hraw1
        subst hraw1
        rw [hcons] at hs1
        have hc2n : NarrowScan E T s e c2 (j + 1) := by
          rw [hc2]
          exact hnew (some s1) c.output (c.index + 1) hs1.symm
        have hc2i : c2.index = ((j + 1 : Nat) : Int) := by
          rw [hc2]
          simp only [hi]
          push_cast
          rfl
        exact ih c2 (j + 1) hc2n hc2i (by omega) r c1 h
    · simp only [if_neg hlt, Prod.mk.injEq] at h
      obtain ⟨hr, hc1⟩ := h
      subst hr hc1
      have hje : j = e := by have := hc.2.2.2.2.2.1; omega
      subst hje
      exact ⟨fun _ => ⟨hc, hi⟩, fun p v h => by simp at h⟩

theorem next_narrow (E : Env) (T : List Nat) (s e : Nat) (he : e ≤ T.length)
    (hb : ∀ b ∈ T, b < 256) (c : AutomatonSearchIter) (j : Nat)
    (hc : NarrowScan E T s e c j) (hi : c.index + 1 = (j : Int))
    (r : NextResult) (c1 : AutomatonSearchIter)
    (h : automaton_search_iter_next E c = (r, c1)) :
    (r = NextResult.StopIteration → NarrowScan E T s e c1 e ∧ c1.index = (e : Int)) ∧
    (∀ p v, r = NextResult.tuple p v →
      ∃ j1, NarrowScan E T s e c1 j1 ∧ c1.index + 1 = (j1 : Int)) := by
  have hv : c.version = E.automaton.version := hc.1
  cases hro : return_output E c with
  | some r0 =>
    rw [next_pending E c r0 hv hro] at h
    obtain ⟨s2, _, _, h2⟩ := return_output_result E _ r0 hro
    rcases h2 with ⟨v1, _, h3⟩ | ⟨_, h3⟩
    · rw [h3, Prod.mk.injEq] at h
      obtain ⟨hr, hc1⟩ := h
      subst hr hc1
      exact ⟨fun h => by simp at h, fun p v _ => ⟨j, hc, hi⟩⟩
    · rw [h3, Prod.mk.injEq] at h
      obtain ⟨hr, _⟩ := h
      subst hr
      exact ⟨fun h => by simp at h, fun p v h => by simp at h⟩
  | none =>
    rw [next_advance E c hv hro (e - j) (by rw [hc.2.2.2.1]; omega)] at h
    have hc2 : NarrowScan E T s e { c with index := c.index + 1 } j := hc
    exact while_loop_narrow E T s e he hb (e - j) _ j hc2 hi (le_refl _) r c1 h

theorem drain_narrow (E : Env) (T : List Nat) (s e : Nat) (he : e ≤ T.length)
    (hb : ∀ b ∈ T, b < 256) :
    ∀ (fuel : Nat) (c : AutomatonSearchIter) (j : Nat), NarrowScan E T s e c j →
      c.index + 1 = (j : Int) →
      ∀ (rs : List (Int × Payload)) (cf : AutomatonSearchIter),
        drain E fuel c = some (rs, NextResult.StopIteration, cf) →
        NarrowScan E T s e cf e ∧ cf.index = (e : Int) := by
  intro fuel
  induction fuel with
  | zero => intro c j _ _ rs cf h; simp [drain] at h
  | succ n ih =>
    intro c j hc hi rs cf h
    cases hn : automaton_search_iter_next E c with
    | mk r c1 =>
      obtain ⟨i1, i2⟩ := next_narrow E T s e he hb c j hc hi r c1 hn
      cases r with
      | tuple p v =>
        rw [drain_tuple E n c c1 p v hn] at h
        obtain ⟨j1, k1, k2⟩ := i2 p v rfl
        cases hd : drain E n c1 with
        | none => rw [hd] at h; simp at h
        | some x =>
          rw [hd] at h
          simp only [Option.map_some', Option.some.injEq, Prod.mk.injEq] at h
          exact ih c1 j1 k1 k2 x.1 cf (by rw [hd, ← h.2])
      | StopIteration =>
        rw [drain_end E n c c1 _ hn (by simp)] at h
        simp only [Option.some.injEq, Prod.mk.injEq, true_and] at h
        rw [← h.2]
        exact i1 rfl
      | ValueError_changed =>
        rw [drain_end E n c c1 _ hn (by simp)] at h
        simp at h
      | ValueError_inconsistent =>
        rw [drain_end E n c c1 _ hn (by simp)] at h
        simp at h
      | assert_failed =>
        rw [drain_end E n c c1 _ hn (by simp)] at h
        simp at h
      | bad_read =>
        rw [drain_end E n c c1 _ hn (by simp)] at h
        simp at h

/-- C11. For any automaton, any narrow buffer `T` of bytes and any range
`start ≤ end ≤ len T`: once the calls on a new iterator over `[start, end)`
have reached the end-of-sequence signal, whatever tuples were returned on the
way, the state of the iterator is the left fold of the transition function
over the bytes `T[start], ..., T[end-1]`, each given to it as it is, from the
root of the automaton, and the index is `end`. -/
theorem narrow_scan_state (E : Env) (T : List Nat) (start end_ : Nat)
    (h1 : start ≤ end_) (h2 : end_ ≤ T.length) (hb : ∀ b ∈ T, b < 256)
    (fuel : Nat) (rs : List (Int × Payload)) (c : AutomatonSearchIter)
    (h : drain E fuel
      (automaton_search_iter_new E (PyObject.bytes T) (start : Int) (end_ : Int) false) =
      some (rs, NextResult.StopIteration, c)) :
    c.state = ((T.take end_).drop start).foldl (NEXT E) E.automaton.root ∧
    c.index = (end_ : Int) := by
  have hc : NarrowScan E T start end_
      (automaton_search_iter_new E (PyObject.bytes T) (start : Int) (end_ : Int) false)
      start := by
    refine ⟨rfl, rfl, rfl, rfl, le_refl _, h1, ?_⟩
    rw [List.drop_eq_nil_of_le (by rw [List.length_take]; omega)]
    rfl
  obtain ⟨k, hi⟩ := drain_narrow E T start end_ h2 hb fuel _ start hc
    (by simp [automaton_search_iter_new]) rs c h
  exact ⟨k.2.2.2.2.2.2, hi⟩

set_option maxRecDepth 100000 in
/-- C11 at an instance: the scenario scanned over `[1, 6)`, three tuples on the
way. The state at the end is the node of `hers`, the fold of the transition
function over `s`, `h`, `e`, `r`, `s`. -/
theorem narrow_scan_state_witness :
    outcome (drain ushersEnv 4
      (automaton_search_iter_new ushersEnv (PyObject.bytes (ascii "ushers")) 1 6 false)) =
      some ([(3, Payload.integer 3), (3, Payload.integer 2), (5, Payload.integer 4)],
        NextResult.StopIteration) ∧
    (afterPulls ushersEnv 4
      (automaton_search_iter_new ushersEnv (PyObject.bytes (ascii "ushers")) 1 6 false)).state =
      (((ascii "ushers").take 6).drop 1).foldl (NEXT ushersEnv) ushersEnv.automaton.root ∧
    (((ascii "ushers").take 6).drop 1).foldl (NEXT ushersEnv) ushersEnv.automaton.root =
      some 7 :=
  ⟨by decide,
   (narrow_scan_state ushersEnv (ascii "ushers") 1 6 (by decide) (by decide) (by decide) 4
      [(3, Payload.integer 3), (3, Payload.integer 2), (5, Payload.integer 4)]
      (afterPulls ushersEnv 4
        (automaton_search_iter_new ushersEnv (PyObject.bytes (ascii "ushers")) 1 6 false))
      (by decide)).1,
   by decide⟩

/-! ### The range of the index -/

theorem while_loop_index_le (E : Env) :
    ∀ (fuel : Nat) (c : AutomatonSearchIter), c.index ≤ c.end_ →
      (while_loop E fuel c).2.index ≤ (while_loop E fuel c).2.end_ := by
  intro fuel
  induction fuel with
  | zero => intro c h; exact h
  | succ n ih =>
    intro c h
    rw [while_loop]
    by_cases hlt : c.index < c.end_
    · rw [if_pos hlt]
      cases hb : loop_body E c with
      | inl r0 =>
        simp only
        have hw : while_loop E 1 c = r0 := by
          rw [while_loop, if_pos hlt, hb]
        obtain ⟨⟨_, _, _, _, f5⟩, _, _, _⟩ := while_loop_spec E 1 c r0.1 r0.2 hw
        rw [(loop_body_inl_index E c r0 hb).2, f5]
        exact h
      | inr c2 =>
        simp only
        obtain ⟨raw, s, _, _, _, hc2⟩ := loop_body_inr E c c2 hb
        apply ih
        subst hc2
        simp only
        omega
    · rw [if_neg hlt]
      exact h

set_option maxRecDepth 100000 in
/-- C12, evaluated at the iterator of the scenario, made with `start = 0` and
`end = 6`: the fourth call returns the end-of-sequence signal and leaves
`index = 6 = end`; the fifth call, a pull repeated after the end of the
sequence, returns the signal again and leaves `index = 7`, above the end. The
index is what a continuation adds to the shift: when the chunk `ush` is pulled
to the end of the sequence and once more, and the iterator is continued on
`ers`, the three tuples come at the positions `4, 4, 6` instead of
`3, 3, 5`. -/
theorem index_exceeds_end_after_exhaustion :
    (pulls ushersEnv 5 ushersIter).drop 3 =
      [NextResult.StopIteration, NextResult.StopIteration] ∧
    IndexInRange (afterPulls ushersEnv 4 ushersIter) ∧
    (afterPulls ushersEnv 5 ushersIter).index = 7 ∧
    (afterPulls ushersEnv 5 ushersIter).end_ = 6 ∧
    ¬ IndexInRange (afterPulls ushersEnv 5 ushersIter) ∧
    pulls ushersEnv 2
      (automaton_search_iter_new ushersEnv (PyObject.bytes (ascii "ush")) 0 3 false) =
      [NextResult.StopIteration, NextResult.StopIteration] ∧
    pulls ushersEnv 3
      (automaton_search_iter_set ushersEnv
        (afterPulls ushersEnv 2
          (automaton_search_iter_new ushersEnv (PyObject.bytes (ascii "ush")) 0 3 false))
        [PyObject.bytes (ascii "ers"), PyFalse]).2 =
      [NextResult.tuple 4 (Payload.integer 3), NextResult.tuple 4 (Payload.integer 2),
       NextResult.tuple 6 (Payload.integer 4)] := by
  unfold IndexInRange
  decide

/-- Where the range of the index is kept. The index of a new iterator made with
`0 ≤ start ≤ end` is in `[-1, end]`; `automaton_search_iter_set` keeps the
index in that range (with the end it sets); `automaton_search_iter_next` keeps
it in that range when it is entered with `index < end`, or with a chain
pending, or with a version that is not the current one; and
`automaton_search_iter_next` always keeps `-1 ≤ index`. -/
theorem index_range_preserved (E : Env) :
    (∀ (buf : PyObject) (start end_ : Int) (iu : Bool), 0 ≤ start → start ≤ end_ →
      IndexInRange (automaton_search_iter_new E buf start end_ iu)) ∧
    (∀ (c : AutomatonSearchIter) (args : List PyObject), IndexInRange c →
      IndexInRange (automaton_search_iter_set E c args).2) ∧
    (∀ c : AutomatonSearchIter, IndexInRange c →
      (c.index < c.end_ ∨ Pending E c ∨ c.version ≠ E.automaton.version) →
      IndexInRange (automaton_search_iter_next E c).2) ∧
    (∀ c : AutomatonSearchIter, -1 ≤ c.index → -1 ≤ (automaton_search_iter_next E c).2.index) := by
  have hlow : ∀ c : AutomatonSearchIter, -1 ≤ c.index →
      -1 ≤ (automaton_search_iter_next E c).2.index := by
    intro c h
    by_cases hv : c.version = E.automaton.version
    · have := (next_spec E c (automaton_search_iter_next E c).1
        (automaton_search_iter_next E c).2 hv rfl).2.1
      omega
    · rw [next_stale E c hv]
      exact h
  refine ⟨?_, ?_, ?_, hlow⟩
  · intro buf start end_ iu h0 h1
    unfold IndexInRange automaton_search_iter_new
    simp only
    omega
  · intro c args h
    by_cases hr : (automaton_search_iter_set E c args).1 = SetResult.None
    · unfold IndexInRange
      unfold automaton_search_iter_set at hr ⊢
      cases h0 : args[0]? with
      | none => rw [h0] at hr; simp at hr
      | some object =>
        cases object with
        | other t => rw [h0] at hr; simp at hr
        | bytes d =>
          cases h1 : args[1]? with
          | none => simp; omega
          | some f =>
            by_cases hf0 : PyObject_IsTrue f = 0
            · simp [hf0]; omega
            · by_cases hf1 : PyObject_IsTrue f = 1
              · simp [hf0, hf1]; omega
              · rw [h0, h1] at hr
                simp [hf0, hf1] at hr
        | unicode d =>
          cases h1 : args[1]? with
          | none => simp; omega
          | some f =>
            by_cases hf0 : PyObject_IsTrue f = 0
            · simp [hf0]; omega
            · by_cases hf1 : PyObject_IsTrue f = 1
              · simp [hf0, hf1]; omega
              · rw [h0, h1] at hr
                simp [hf0, hf1] at hr
    · rw [set_failure_unchanged E c args hr]
      exact h
  · intro c h hcase
    refine ⟨hlow c h.1, ?_⟩
    by_cases hv : c.version = E.automaton.version
    · cases hro : return_output E c with
      | some r0 =>
        rw [next_pending E c r0 hv hro]
        obtain ⟨s, _, _, h2⟩ := return_output_result E _ r0 hro
        rcases h2 with ⟨v1, _, h3⟩ | ⟨_, h3⟩
        · rw [h3]
          exact h.2
        · rw [h3]
          exact h.2
      | none =>
        have hlt : c.index < c.end_ := by
          rcases hcase with h1 | h1 | h1
          · exact h1
          · exact absurd hro ((pending_iff E c).1 h1)
          · exact absurd hv h1
        rw [next_advance E c hv hro _ (le_refl _)]
        apply while_loop_index_le
        simp only
        omega
    · rw [next_stale E c hv]
      exact h.2

set_option maxRecDepth 100000 in
/-- The range of the index at the iterator of the scenario: it is made in the
range, its first call is entered with `index = -1 < 6` and leaves `index = 3`,
and a continuation on the buffer `rs` leaves the index `-1` and the end `2`. -/
theorem index_range_preserved_instance :
    IndexInRange ushersIter ∧
    IndexInRange (automaton_search_iter_next ushersEnv ushersIter).2 ∧
    (automaton_search_iter_next ushersEnv ushersIter).2.index = 3 ∧
    IndexInRange (automaton_search_iter_set ushersEnv
      (automaton_search_iter_next ushersEnv ushersIter).2 [PyObject.bytes (ascii "rs")]).2 :=
  have h := index_range_preserved ushersEnv
  have h0 : IndexInRange ushersIter :=
    h.1 (PyObject.bytes (ascii "ushers")) 0 6 false (by decide) (by decide)
  have h1 := h.2.2.1 ushersIter h0 (Or.inl (by decide))
  ⟨h0, h1, by decide, h.2.1 _ [PyObject.bytes (ascii "rs")] h1⟩

/-! ### A continuation while a chain is pending -/

/-- After `automaton_search_iter_set` with a flag that is absent or false, made
while an end-of-word node `s` is at the output pointer and the index is not
negative, the next call returns the payload of `s` at the position
`index + shift - 1`, one below the position `index + shift` of the tuples
returned before the call of `automaton_search_iter_set`. -/
theorem set_pending_position (E : Env) (c : AutomatonSearchIter) (args : List PyObject)
    (buf : PyObject) (s : Nat) (hv : c.version = E.automaton.version)
    (hk : E.automaton.kind ≠ KeysStore.INVALID) (hi : 0 ≤ c.index)
    (ho : c.output = some s) (he : (E.node s).eow = true)
    (h0 : args[0]? = some buf) (hbuf : buf.isBuffer = true)
    (hflag : args[1]? = none ∨ ∃ f, args[1]? = some f ∧ PyObject_IsTrue f = 0) :
    (automaton_search_iter_next E (automaton_search_iter_set E c args).2).1 =
      NextResult.tuple (c.index + c.shift - 1) (nodePayload E.automaton.kind (E.node s)) := by
  have hf : (args[1]? = none ∧ false = false) ∨
      ∃ f, args[1]? = some f ∧ PyObject_IsTrue f = (if false = true then 1 else 0) := by
    rcases hflag with h | ⟨f, h1, h2⟩
    · exact Or.inl ⟨h, rfl⟩
    · exact Or.inr ⟨f, h1, by simpa using h2⟩
  have hset : (automaton_search_iter_set E c args).2 =
      { c with object := buf, is_unicode := buf.isUnicode, index := -1, end_ := buf.len,
               shift := c.shift + c.index } := by
    rw [set_buffer E c args buf false h0 hbuf hf]
    simp only [Bool.false_eq_true, if_false, ge_iff_le, if_pos hi]
  rw [hset]
  have hn := next_pending E
    { c with object := buf, is_unicode := buf.isUnicode, index := -1, end_ := buf.len,
             shift := c.shift + c.index } _ hv
    (return_output_eow E
      { c with object := buf, is_unicode := buf.isUnicode, index := -1, end_ := buf.len,
               shift := c.shift + c.index } s hk ho he)
  rw [hn]
  simp only [NextResult.tuple.injEq, and_true]
  omega

set_option maxRecDepth 100000 in
/-- C13, evaluated at the scenario. The first call returns `she` at position
`3` and leaves the node of `he` pending; after a continuation on the buffer
`rs` the next call returns the payload `2` of `he` at position `2`, not `3`. -/
theorem rebind_pending_position :
    (automaton_search_iter_next ushersEnv ushersIter).1 = NextResult.tuple 3 (Payload.integer 3) ∧
    (automaton_search_iter_next ushersEnv ushersIter).2.output = some 2 ∧
    (ushersEnv.node 2).eow = true ∧
    (automaton_search_iter_next ushersEnv ushersIter).2.index = 3 ∧
    (automaton_search_iter_next ushersEnv
      (automaton_search_iter_set ushersEnv (automaton_search_iter_next ushersEnv ushersIter).2
        [PyObject.bytes (ascii "rs"), PyFalse]).2).1 = NextResult.tuple 2 (Payload.integer 2) ∧
    (pulls ushersEnv 2 ushersIter) =
      [NextResult.tuple 3 (Payload.integer 3), NextResult.tuple 3 (Payload.integer 2)] := by
  decide

end AhoCorasick
